import Mathlib

/-!
Verification of the treemap layout engine (src/src/treemap.h) of the prism
repository.

Modelling conventions:
- C++ float/double arithmetic is modelled by exact rational arithmetic (ℚ).
  Division by zero in ℚ yields 0; where a claim is specifically about a
  division by zero producing a non-finite value (claim C4), an instrumented
  Option-valued pipeline is used instead, in which every division whose
  divisor is zero aborts the computation.
- The square root in the scaling step of layout is irrational in general, so
  the scaling factor is passed as an explicit parameter; the theorems pin it
  down by the exact characterization of sqrt on rationals,
  0 ≤ sf and sf * sf * area(available_rect) = root.size.
- std::priority_queue of the C++ source is modelled by the algorithms of the
  GNU libstdc++ standard library that implement it over a std::vector
  (make_heap via repeated adjust_heap, top as the front element, pop via
  pop_heap followed by pop_back), including the exact two-phase
  hole-sifting of adjust_heap, which determines the order of equal-sized
  elements.
- Tree nodes (the TreeNode concept) are modelled by a rose tree carrying the
  node size; well-formed inputs (Tree.wf) have non-negative sizes and
  internal-node sizes equal to the sum of their children's sizes, as the
  spec requires of callers.
-/

namespace Prism

/-- Two-dimensional vector, models ImVec2 as used by treemap.h. -/
structure Vec2 where
  x : ℚ
  y : ℚ
deriving DecidableEq, Repr

/-- Axis-aligned rectangle, models treemap::Rect. -/
structure Rect where
  x : ℚ
  y : ℚ
  width : ℚ
  height : ℚ
deriving DecidableEq, Repr

/-- Models treemap::shorter_side. -/
def shorter_side (r : Rect) : ℚ := min r.width r.height

/-- Models treemap::area. -/
def area (r : Rect) : ℚ := r.width * r.height

/-- Models treemap::rect_min. -/
def rect_min (r : Rect) : Vec2 := ⟨r.x, r.y⟩

/-- Models treemap::rect_max. -/
def rect_max (r : Rect) : Vec2 := ⟨r.x + r.width, r.y + r.height⟩

/-- Models treemap::less_than_or_equal on ImVec2 (componentwise disjunction). -/
def less_than_or_equal (a b : Vec2) : Bool := a.x ≤ b.x || a.y ≤ b.y

/-- Models treemap::overlaps. -/
def overlaps (a b : Rect) : Bool :=
  !(less_than_or_equal (rect_max a) (rect_min b) ||
    less_than_or_equal (rect_max b) (rect_min a))

/-- Models treemap::within_bounds. -/
def within_bounds (rect bounds : Rect) : Bool :=
  rect.x ≥ bounds.x && rect.y ≥ bounds.y &&
  rect.x + rect.width ≤ bounds.x + bounds.width &&
  rect.y + rect.height ≤ bounds.y + bounds.height

/-- Rose tree of weighted nodes: models any type satisfying the TreeNode
concept of treemap.h (size plus ordered children). -/
inductive Tree : Type where
  | node : ℚ → List Tree → Tree

/-- The size accessor of the TreeNode concept. -/
def Tree.size : Tree → ℚ
  | .node s _ => s

/-- The children accessor of the TreeNode concept. -/
def Tree.children : Tree → List Tree
  | .node _ cs => cs

/-- Sum of the sizes of a list of nodes. -/
def sizeSum (l : List Tree) : ℚ := (l.map Tree.size).sum

mutual

/-- Well-formed input tree, as the spec requires of callers: all sizes are
non-negative and every internal node's size is the sum of its children's
sizes. -/
def Tree.wf : Tree → Bool
  | .node s cs => decide (0 ≤ s) && (cs.isEmpty || decide (s = sizeSum cs)) && wfList cs

/-- All trees in the list are well-formed. -/
def wfList : List Tree → Bool
  | [] => true
  | t :: ts => t.wf && wfList ts

end

mutual

/-- Every node size in the tree is strictly positive: the domain on which
the source's divisions never see a zero divisor. -/
def Tree.allPos : Tree → Bool
  | .node s cs => decide (0 < s) && allPosList cs

/-- Every tree in the list has strictly positive sizes throughout. -/
def allPosList : List Tree → Bool
  | [] => true
  | t :: ts => t.allPos && allPosList ts

end

/-- Models treemap::RenderRect: a node reference paired with its rectangle. -/
structure RenderRect where
  node_ : Tree
  rect_ : Rect

/-- The predicate of the std::find_if lambda in treemap::hit_test: the test
point lies inside the rectangle translated by the offset (rect_min at
offset + position, rect_max at rect_min + dimensions), boundary inclusive. -/
def hit_test_pred (offset test : Vec2) (rect : RenderRect) : Bool :=
  decide (test.x ≥ offset.x + rect.rect_.x) &&
  decide (test.x ≤ offset.x + rect.rect_.x + rect.rect_.width) &&
  decide (test.y ≥ offset.y + rect.rect_.y) &&
  decide (test.y ≤ offset.y + rect.rect_.y + rect.rect_.height)

/-- Models treemap::hit_test: a linear scan (std::find_if) returning the node
of the first rectangle, translated by the offset, that contains the test
point, boundary inclusive. -/
def hit_test (test : Vec2) (rects : List RenderRect) (offset : Vec2) : Option Tree :=
  match rects.find? (hit_test_pred offset test) with
  | none => none
  | some rect => some rect.node_

/-- Value of std::numeric_limits<float>::max() as an exact rational. -/
def flt_max : ℚ := (2 ^ 24 - 1) * 2 ^ 104

/-- Value of std::numeric_limits<float>::min() as an exact rational. -/
def flt_min : ℚ := 1 / 2 ^ 126

/-- Models treemap::worst_aspect_ratio (renamed): the closed-form bound
max((w^2 * max_size) / total^2, total^2 / (w^2 * min_size)). -/
def aspect_worst (total_size max_element_size min_element_size w : ℚ) : ℚ :=
  max ((w * w * max_element_size) / (total_size * total_size))
      ((total_size * total_size) / (w * w * min_element_size))

/-- Models treemap::Row: the transient accumulator of one squarify row. -/
structure Row where
  rect : Rect
  w : ℚ
  elements : List Tree
  size : ℚ
  max_element_size : ℚ
  min_element_size : ℚ
  current_worst : ℚ

/-- Models Row::push. -/
def Row.push (r : Row) (element : Tree) : Row :=
  let element_size := element.size
  { r with
    elements := r.elements ++ [element]
    size := r.size + element_size
    min_element_size := element_size
    current_worst :=
      aspect_worst (r.size + element_size) r.max_element_size element_size r.w }

/-- Models the Row constructor: record the rectangle, its shorter side and the
seed's size as the maximum, then push the seed. The min and worst fields
start at the float limits exactly as in the source. -/
def Row.init (rect : Rect) (initial_element : Tree) : Row :=
  Row.push
    { rect := rect
      w := shorter_side rect
      elements := []
      size := 0
      max_element_size := initial_element.size
      min_element_size := flt_max
      current_worst := flt_min } initial_element

/-- Models Row::test. -/
def Row.test (r : Row) (element_size : ℚ) : Bool :=
  aspect_worst (r.size + element_size) r.max_element_size element_size r.w ≤
    r.current_worst

/-- Models Row::element_count. -/
def Row.element_count (r : Row) : Nat := r.elements.length

/-- The horizontal-strip loop of treemap::layoutrow: members are placed
left-to-right at the top of the rectangle, each of width size/row_height,
accumulating the x offset. -/
def placeRowH (nodes : List Tree) (xbase y row_height x_offset : ℚ) : List RenderRect :=
  match nodes with
  | [] => []
  | n :: ns =>
    ⟨n, ⟨xbase + x_offset, y, n.size / row_height, row_height⟩⟩ ::
      placeRowH ns xbase y row_height (x_offset + n.size / row_height)

/-- The vertical-strip loop of treemap::layoutrow: members are stacked
top-to-bottom at the left of the rectangle, each of height size/row_width,
accumulating the y offset. -/
def placeRowV (nodes : List Tree) (xbase y row_width y_offset : ℚ) : List RenderRect :=
  match nodes with
  | [] => []
  | n :: ns =>
    ⟨n, ⟨xbase, y + y_offset, row_width, n.size / row_width⟩⟩ ::
      placeRowV ns xbase y row_width (y_offset + n.size / row_width)

/-- Models treemap::layoutrow: place one finished row inside its rectangle and
return the emitted rectangles together with the leftover rectangle. -/
def layoutrow (row : Row) : List RenderRect × Rect :=
  let available_rect := row.rect
  if row.element_count = 0 then ([], available_rect)
  else
    let layout_horizontally := available_rect.width < available_rect.height
    if layout_horizontally then
      let row_height := row.size / available_rect.width
      (placeRowH row.elements available_rect.x available_rect.y row_height 0,
       ⟨available_rect.x, available_rect.y + row_height,
        available_rect.width, available_rect.height - row_height⟩)
    else
      let row_width := row.size / available_rect.height
      (placeRowV row.elements available_rect.x available_rect.y row_width 0,
       ⟨available_rect.x + row_width, available_rect.y,
        available_rect.width - row_width, available_rect.height⟩)

/-- Default element used by the total indexing function on heap vectors. -/
def dfltTree : Tree := .node 0 []

/-- Total indexing into the heap vector (indices used by the heap algorithms
are always in range at their call sites). -/
def nth (l : List Tree) (i : Nat) : Tree := l.getD i dfltTree

/-- The comparator passed to std::priority_queue in treemap::squarify:
cmp(left, right) = left->size() < right->size(), yielding a max-heap on
sizes. -/
def sizeLt (a b : Tree) : Bool := a.size < b.size

/-- Parent index in the implicit binary-heap layout used by the std::
priority_queue algorithms. -/
def parentIdx (j : Nat) : Nat := (j - 1) / 2

/-- Iterated parent index. -/
def pIter : Nat → Nat → Nat
  | 0, j => j
  | k + 1, j => pIter k (parentIdx j)

/-- j lies in the subtree rooted at top of the implicit heap layout. -/
def desc (top j : Nat) : Prop := ∃ k, pIter k j = top

/-- c is a child index of i in the implicit heap layout. -/
def childIdx (i c : Nat) : Prop := c = 2 * i + 1 ∨ c = 2 * i + 2

/-- Position i dominates position j under the squarify comparator: the
element at j does not compare greater than the element at i (its size is not
larger). -/
def domAt (l : List Tree) (i j : Nat) : Prop :=
  sizeLt (nth l i) (nth l j) = false

/-- The loop of libstdc++ push_heap: the hole walks up toward topIndex while
the parent compares less than the value, moving parents down; finally the
value is written into the hole. The counter bounds the iteration count (the
hole index strictly decreases, so an initial counter equal to the hole
suffices and the loop semantics are unchanged). -/
def pushLoop : Nat → List Tree → Nat → Nat → Tree → List Tree
  | 0, l, hole, _, value => l.set hole value
  | fuel + 1, l, hole, top, value =>
    if top < hole && sizeLt (nth l ((hole - 1) / 2)) value then
      pushLoop fuel (l.set hole (nth l ((hole - 1) / 2))) ((hole - 1) / 2) top value
    else l.set hole value

/-- The secondChild selection of libstdc++ adjust_heap: set secondChild to the
right child 2*(second+1) and decrement it when the right child compares less
than the left child — so equal children select the right child, as in the
library. -/
def heapChild (l : List Tree) (second : Nat) : Nat :=
  if sizeLt (nth l (2 * (second + 1))) (nth l (2 * (second + 1) - 1)) then
    2 * (second + 1) - 1
  else 2 * (second + 1)

/-- The descent loop of libstdc++ adjust_heap: while the hole has two
children, the larger child is moved up into the hole and the hole descends;
returns the vector, the hole and the secondChild variable. The counter bounds
the iteration count (the secondChild index strictly increases toward len). -/
def adjustLoop : Nat → List Tree → Nat → Nat → Nat → List Tree × Nat × Nat
  | 0, l, hole, second, _ => (l, hole, second)
  | fuel + 1, l, hole, second, len =>
    if second < (len - 1) / 2 then
      adjustLoop fuel (l.set hole (nth l (heapChild l second)))
        (heapChild l second) (heapChild l second) len
    else (l, hole, second)

/-- Models libstdc++ adjust_heap(first, holeIndex, len, value): descend the
hole along the larger children, handle the final single-child node of an
even-length heap, then sift the value up from the hole toward holeIndex. -/
def adjustHeap (l : List Tree) (holeIndex len : Nat) (value : Tree) : List Tree :=
  let l1 := (adjustLoop len l holeIndex holeIndex len).1
  let hole1 := (adjustLoop len l holeIndex holeIndex len).2.1
  let second1 := (adjustLoop len l holeIndex holeIndex len).2.2
  if len % 2 == 0 && second1 == (len - 2) / 2 then
    pushLoop (2 * (second1 + 1) - 1) (l1.set hole1 (nth l1 (2 * (second1 + 1) - 1)))
      (2 * (second1 + 1) - 1) holeIndex value
  else
    pushLoop hole1 l1 hole1 holeIndex value

/-- The parent-countdown loop of libstdc++ make_heap: adjust every internal
node, from the last parent down to the root. -/
def makeHeapAux (len : Nat) : Nat → List Tree → List Tree
  | 0, l => adjustHeap l 0 len (nth l 0)
  | p + 1, l => makeHeapAux len p (adjustHeap l (p + 1) len (nth l (p + 1)))

/-- Models libstdc++ make_heap over the whole vector (no-op on fewer than two
elements). -/
def makeHeap (l : List Tree) : List Tree :=
  if l.length < 2 then l else makeHeapAux l.length ((l.length - 2) / 2) l

/-- Models priority_queue::pop: std::pop_heap (which moves the front element
to the back, adjusting the heap on the rest; a no-op on fewer than two
elements) followed by pop_back. -/
def popHeap (l : List Tree) : List Tree :=
  if l.length ≤ 1 then l.dropLast
  else
    (adjustHeap (l.set (l.length - 1) (nth l 0)) 0 (l.length - 1)
      (nth l (l.length - 1))).dropLast

/-- Repeatedly read the top of the heap and pop, collecting the sequence of
popped elements; the counter equals the number of elements, which is exactly
the number of pops performed by squarify. -/
def heapPopsAux : Nat → List Tree → List Tree
  | 0, _ => []
  | fuel + 1, l => if l.isEmpty then [] else nth l 0 :: heapPopsAux fuel (popHeap l)

/-- The sequence of elements obtained from the priority queue built over the
given children, in pop order: this is the order in which squarify consumes
children. -/
def heapPops (l : List Tree) : List Tree := heapPopsAux l.length (makeHeap l)

/-- The main loop of treemap::squarify, driven by the sequence of elements
popped from the priority queue (the pops do not depend on the row state, so
the pop sequence is factored out): each next-largest element either extends
the current row or flushes it and seeds a new row in the leftover rectangle;
a final non-empty row is flushed at the end. -/
def squarifyLoop : List Tree → Row → List RenderRect
  | [], current_row =>
    if current_row.element_count ≠ 0 then (layoutrow current_row).1 else []
  | largest_remaining :: rest, current_row =>
    if current_row.test largest_remaining.size then
      squarifyLoop rest (current_row.push largest_remaining)
    else
      let flushed := layoutrow current_row
      flushed.1 ++ squarifyLoop rest (Row.init flushed.2 largest_remaining)

/-- Models treemap::squarify: returns the empty layout on an empty child
list, otherwise seeds a row with the first popped element and runs the main
loop on the remaining pops. -/
def squarify (children : List Tree) (available_rect : Rect) : List RenderRect :=
  match heapPops children with
  | [] => []
  | first :: rest => squarifyLoop rest (Row.init available_rect first)

/-- Division instrumented for the float pitfall: in IEEE arithmetic x / 0
produces NaN or an infinity, while ℚ division by zero silently yields 0.
divChecked returns none exactly when the source divides by zero. -/
def divChecked (a b : ℚ) : Option ℚ := if b = 0 then none else some (a / b)

/-- worst_aspect_ratio with both divisions instrumented: none exactly when
the source divides by zero (total_size = 0 for the first quotient, or
w = 0 or min_element_size = 0 for the second). -/
def aspect_worst_checked (total_size max_element_size min_element_size w : ℚ) :
    Option ℚ :=
  (divChecked (w * w * max_element_size) (total_size * total_size)).bind
    (fun a => (divChecked (total_size * total_size)
      (w * w * min_element_size)).map (fun b => max a b))

/-- Row::test with its worst_aspect_ratio call instrumented. -/
def Row.test_checked (r : Row) (element_size : ℚ) : Option Bool :=
  (aspect_worst_checked (r.size + element_size) r.max_element_size
    element_size r.w).map (fun a => decide (a ≤ r.current_worst))

/-- Row::push with its worst_aspect_ratio call instrumented. -/
def Row.push_checked (r : Row) (element : Tree) : Option Row :=
  (aspect_worst_checked (r.size + element.size) r.max_element_size
    element.size r.w).map (fun cw =>
      { r with
        elements := r.elements ++ [element]
        size := r.size + element.size
        min_element_size := element.size
        current_worst := cw })

/-- The Row constructor with its seed push instrumented. -/
def Row.init_checked (rect : Rect) (initial_element : Tree) : Option Row :=
  Row.push_checked
    { rect := rect
      w := shorter_side rect
      elements := []
      size := 0
      max_element_size := initial_element.size
      min_element_size := flt_max
      current_worst := flt_min } initial_element

/-- The horizontal-strip loop with each member's width division
instrumented. -/
def placeRowH_checked :
    List Tree → ℚ → ℚ → ℚ → ℚ → Option (List RenderRect)
  | [], _, _, _, _ => some []
  | n :: ns, xbase, y, row_height, x_offset =>
    (divChecked n.size row_height).bind (fun w =>
      (placeRowH_checked ns xbase y row_height (x_offset + w)).map
        (fun rest => ⟨n, ⟨xbase + x_offset, y, w, row_height⟩⟩ :: rest))

/-- The vertical-strip loop with each member's height division
instrumented. -/
def placeRowV_checked :
    List Tree → ℚ → ℚ → ℚ → ℚ → Option (List RenderRect)
  | [], _, _, _, _ => some []
  | n :: ns, xbase, y, row_width, y_offset =>
    (divChecked n.size row_width).bind (fun h =>
      (placeRowV_checked ns xbase y row_width (y_offset + h)).map
        (fun rest => ⟨n, ⟨xbase, y + y_offset, row_width, h⟩⟩ :: rest))

/-- layoutrow with every division instrumented: the strip quotient and each
member quotient. -/
def layoutrow_checked (row : Row) : Option (List RenderRect × Rect) :=
  if row.element_count = 0 then some ([], row.rect)
  else if row.rect.width < row.rect.height then
    (divChecked row.size row.rect.width).bind (fun rh =>
      (placeRowH_checked row.elements row.rect.x row.rect.y rh 0).map
        (fun rs => (rs, ⟨row.rect.x, row.rect.y + rh, row.rect.width,
          row.rect.height - rh⟩)))
  else
    (divChecked row.size row.rect.height).bind (fun rw2 =>
      (placeRowV_checked row.elements row.rect.x row.rect.y rw2 0).map
        (fun rs => (rs, ⟨row.rect.x + rw2, row.rect.y,
          row.rect.width - rw2, row.rect.height⟩)))

/-- The squarify main loop with every division instrumented, aborting at the
first division by zero in program order. -/
def squarifyLoop_checked : List Tree → Row → Option (List RenderRect)
  | [], current_row =>
    if current_row.element_count ≠ 0 then
      (layoutrow_checked current_row).map (fun p => p.1)
    else some []
  | largest_remaining :: rest, current_row =>
    (current_row.test_checked largest_remaining.size).bind (fun t =>
      if t then
        (current_row.push_checked largest_remaining).bind (fun r2 =>
          squarifyLoop_checked rest r2)
      else
        (layoutrow_checked current_row).bind (fun flushed =>
          (Row.init_checked flushed.2 largest_remaining).bind (fun r2 =>
            (squarifyLoop_checked rest r2).map (fun more =>
              flushed.1 ++ more))))

/-- squarify with every division instrumented (the priority queue compares
sizes and performs no division). -/
def squarify_checked (children : List Tree) (available_rect : Rect) :
    Option (List RenderRect) :=
  match heapPops children with
  | [] => some []
  | first :: rest =>
    (Row.init_checked available_rect first).bind (fun r =>
      squarifyLoop_checked rest r)

/-! Index and permutation facts about the heap primitives. -/

theorem nth_set_self (l : List Tree) (i : Nat) (a : Tree) (h : i < l.length) :
    nth (l.set i a) i = a := by
  simp [nth, List.getD_eq_getElem?_getD, List.getElem?_set_self h]

theorem nth_set_ne (l : List Tree) {i j : Nat} (a : Tree) (h : i ≠ j) :
    nth (l.set i a) j = nth l j := by
  simp [nth, List.getD_eq_getElem?_getD, List.getElem?_set_ne h]

theorem set_nth_self (l : List Tree) (i : Nat) (h : i < l.length) :
    l.set i (nth l i) = l := by
  apply List.ext_getElem?
  intro n
  by_cases hn : i = n
  · subst hn
    simp [nth, List.getD_eq_getElem?_getD, List.getElem?_set_self h,
      List.getElem?_eq_getElem h]
  · simp [List.getElem?_set_ne hn]

theorem nth_cons_succ (x : Tree) (xs : List Tree) (k : Nat) :
    nth (x :: xs) (k + 1) = nth xs k := rfl

theorem perm_nth_cons_set (xs : List Tree) :
    ∀ (m : Nat), m < xs.length → ∀ (a : Tree),
      List.Perm (nth xs m :: xs.set m a) (a :: xs) := by
  induction xs with
  | nil => intro m hm; simp at hm
  | cons y ys ih =>
    intro m hm a
    match m with
    | 0 => exact List.Perm.swap a y ys
    | k + 1 =>
      have hk : k < ys.length := by simpa using hm
      exact (List.Perm.swap y (nth ys k) (ys.set k a)).trans
        (((ih k hk a).cons y).trans (List.Perm.swap a y ys))

theorem perm_set_transpose (l : List Tree) (i j : Nat) (hi : i < l.length)
    (hj : j < l.length) (hij : i ≠ j) (a : Tree) :
    List.Perm ((l.set i (nth l j)).set j a) (l.set i a) := by
  set x := nth l j with hx
  set y := nth l i with hy
  have hjx : nth (l.set i x) j = x := by rw [nth_set_ne l x hij]
  have h1 : List.Perm (x :: (l.set i x).set j a) (a :: l.set i x) := by
    have := perm_nth_cons_set (l.set i x) j (by simpa using hj) a
    rwa [hjx] at this
  have h2 : List.Perm (y :: l.set i x) (x :: l) := perm_nth_cons_set l i hi x
  have h3 : List.Perm (y :: l.set i a) (a :: l) := perm_nth_cons_set l i hi a
  have big : List.Perm (y :: x :: (l.set i x).set j a) (y :: x :: l.set i a) :=
    ((h1.cons y).trans ((List.Perm.swap a y (l.set i x)).trans ((h2.cons a).trans
      ((List.Perm.swap x a l).trans ((h3.symm.cons x).trans
        (List.Perm.swap y x (l.set i a)))))))
  exact (big.cons_inv).cons_inv

theorem pushLoop_perm :
    ∀ (fuel : Nat) (l : List Tree) (hole top : Nat) (value : Tree),
      hole < l.length →
      List.Perm (pushLoop fuel l hole top value) (l.set hole value) := by
  intro fuel
  induction fuel with
  | zero => intro l hole top value _; exact List.Perm.refl _
  | succ f ih =>
    intro l hole top value hhole
    show List.Perm (pushLoop (f + 1) l hole top value) _
    rw [pushLoop]
    by_cases hc : (top < hole && sizeLt (nth l ((hole - 1) / 2)) value) = true
    · rw [if_pos hc]
      have htop : top < hole := by
        have := hc; simp only [Bool.and_eq_true, decide_eq_true_eq] at this
        exact this.1
      have hparent : (hole - 1) / 2 < hole := by omega
      have hplen : (hole - 1) / 2 < (l.set hole (nth l ((hole - 1) / 2))).length := by
        simpa using lt_trans hparent hhole
      have := ih (l.set hole (nth l ((hole - 1) / 2))) ((hole - 1) / 2) top value hplen
      refine this.trans ?_
      exact perm_set_transpose l hole ((hole - 1) / 2) hhole
        (lt_trans hparent hhole) (by omega) value
    · rw [if_neg hc]

theorem pushLoop_length (fuel : Nat) (l : List Tree) (hole top : Nat)
    (value : Tree) (h : hole < l.length) :
    (pushLoop fuel l hole top value).length = l.length :=
  ((pushLoop_perm fuel l hole top value h).length_eq).trans (by simp)

theorem adjustLoop_spec :
    ∀ (fuel : Nat) (l : List Tree) (hole len : Nat),
      hole < len → len ≤ l.length →
      (∀ v, List.Perm ((adjustLoop fuel l hole hole len).1.set
          (adjustLoop fuel l hole hole len).2.1 v) (l.set hole v)) ∧
      (adjustLoop fuel l hole hole len).1.length = l.length ∧
      (adjustLoop fuel l hole hole len).2.1 < len ∧
      (adjustLoop fuel l hole hole len).2.1 = (adjustLoop fuel l hole hole len).2.2 ∧
      hole ≤ (adjustLoop fuel l hole hole len).2.2 := by
  intro fuel
  induction fuel with
  | zero =>
    intro l hole len hh hlen
    exact ⟨fun v => List.Perm.refl _, rfl, hh, rfl, Nat.le_refl _⟩
  | succ f ih =>
    intro l hole len hh hlen
    rw [adjustLoop]
    by_cases hc : hole < (len - 1) / 2
    · simp only [if_pos hc]
      have hs2range : hole < heapChild l hole ∧ heapChild l hole < len := by
        rw [heapChild]
        split <;> omega
      set s2 := heapChild l hole with hs2
      set l2 := l.set hole (nth l s2) with hl2
      have hlen2 : len ≤ l2.length := by simpa [hl2] using hlen
      obtain ⟨ihperm, ihlen, ihlt, iheq, ihle⟩ := ih l2 s2 len hs2range.2 hlen2
      refine ⟨?_, by simpa [hl2] using ihlen, ihlt, iheq, by omega⟩
      intro v
      refine (ihperm v).trans ?_
      exact perm_set_transpose l hole s2 (lt_of_lt_of_le hh hlen)
        (lt_of_lt_of_le hs2range.2 hlen) (by omega) v
    · simp only [if_neg hc]
      exact ⟨fun v => List.Perm.refl _, by simp, hh, by simp, by simp⟩

theorem adjustHeap_perm (l : List Tree) (hole len : Nat) (value : Tree)
    (hh : hole < len) (hlen : len ≤ l.length) :
    List.Perm (adjustHeap l hole len value) (l.set hole value) := by
  obtain ⟨hperm, hlenq, hlt, heq, _⟩ := adjustLoop_spec len l hole len hh hlen
  rcases hA : adjustLoop len l hole hole len with ⟨l1, hole12⟩
  rcases hole12 with ⟨hole1, second1⟩
  rw [hA] at hperm hlenq hlt heq
  simp only at hperm hlenq hlt heq
  rw [adjustHeap, hA]
  dsimp only
  rw [heq] at hperm hlt ⊢
  by_cases hev : (len % 2 == 0 && second1 == (len - 2) / 2) = true
  · rw [if_pos hev]
    simp only [Bool.and_eq_true, beq_iff_eq] at hev
    have hlen2 : 2 ≤ len := by omega
    have h21 : 2 * (second1 + 1) - 1 = len - 1 := by omega
    have hne : second1 ≠ 2 * (second1 + 1) - 1 := by omega
    have hlast : 2 * (second1 + 1) - 1 <
        (l1.set second1 (nth l1 (2 * (second1 + 1) - 1))).length := by
      simp only [List.length_set, hlenq]; omega
    refine (pushLoop_perm _ _ _ _ value hlast).trans ?_
    refine (perm_set_transpose l1 second1 (2 * (second1 + 1) - 1)
      (by omega) (by omega) hne value).trans ?_
    exact hperm value
  · rw [if_neg hev]
    refine (pushLoop_perm second1 l1 second1 hole value (by omega)).trans ?_
    exact hperm value

theorem makeHeapAux_perm (len : Nat) :
    ∀ (p : Nat) (l : List Tree), p < len → len ≤ l.length →
      List.Perm (makeHeapAux len p l) l := by
  intro p
  induction p with
  | zero =>
    intro l hp hl
    have := adjustHeap_perm l 0 len (nth l 0) hp hl
    rwa [set_nth_self l 0 (by omega)] at this
  | succ q ih =>
    intro l hp hl
    show List.Perm (makeHeapAux len q (adjustHeap l (q + 1) len (nth l (q + 1)))) l
    have hadj : List.Perm (adjustHeap l (q + 1) len (nth l (q + 1))) l := by
      have := adjustHeap_perm l (q + 1) len (nth l (q + 1)) hp hl
      rwa [set_nth_self l (q + 1) (by omega)] at this
    have hlen : len ≤ (adjustHeap l (q + 1) len (nth l (q + 1))).length := by
      rw [hadj.length_eq]; exact hl
    exact (ih _ (by omega) hlen).trans hadj

theorem makeHeap_perm (l : List Tree) : List.Perm (makeHeap l) l := by
  rw [makeHeap]
  by_cases h : l.length < 2
  · rw [if_pos h]
  · rw [if_neg h]
    exact makeHeapAux_perm l.length ((l.length - 2) / 2) l (by omega) (Nat.le_refl _)

theorem perm_last_cons_dropLast :
    ∀ (xs : List Tree), xs ≠ [] →
      List.Perm xs (nth xs (xs.length - 1) :: xs.dropLast) := by
  intro xs
  induction xs with
  | nil => intro h; exact absurd rfl h
  | cons x rest ih =>
    intro _
    match rest, ih with
    | [], _ => exact List.Perm.refl _
    | y :: t, ih =>
      have hne : y :: t ≠ [] := by simp
      have h1 : nth (x :: y :: t) ((x :: y :: t).length - 1) =
          nth (y :: t) ((y :: t).length - 1) := by
        simp [nth]
      have h2 : (x :: y :: t).dropLast = x :: (y :: t).dropLast := by
        simp [List.dropLast]
      rw [h1, h2]
      exact ((ih hne).cons x).trans
        (List.Perm.swap (nth (y :: t) ((y :: t).length - 1)) x ((y :: t).dropLast))

theorem pushLoop_frame :
    ∀ (fuel : Nat) (l : List Tree) (hole top : Nat) (value : Tree) (i : Nat),
      hole < i → nth (pushLoop fuel l hole top value) i = nth l i := by
  intro fuel
  induction fuel with
  | zero =>
    intro l hole top value i hi
    exact nth_set_ne l value (by omega)
  | succ f ih =>
    intro l hole top value i hi
    rw [pushLoop]
    by_cases hc : (top < hole && sizeLt (nth l ((hole - 1) / 2)) value) = true
    · rw [if_pos hc]
      have htop : top < hole := by
        simp only [Bool.and_eq_true, decide_eq_true_eq] at hc; exact hc.1
      rw [ih _ _ _ _ _ (by omega)]
      exact nth_set_ne l _ (by omega)
    · rw [if_neg hc]
      exact nth_set_ne l value (by omega)

theorem adjustLoop_frame :
    ∀ (fuel : Nat) (l : List Tree) (hole len i : Nat),
      hole < len → len ≤ i →
      nth (adjustLoop fuel l hole hole len).1 i = nth l i := by
  intro fuel
  induction fuel with
  | zero => intro l hole len i _ _; rfl
  | succ f ih =>
    intro l hole len i hh hi
    rw [adjustLoop]
    by_cases hc : hole < (len - 1) / 2
    · rw [if_pos hc]
      have hcr : hole < heapChild l hole ∧ heapChild l hole < len := by
        rw [heapChild]; split <;> omega
      rw [ih _ _ _ _ hcr.2 hi]
      exact nth_set_ne l _ (by omega)
    · rw [if_neg hc]

theorem adjustHeap_frame (l : List Tree) (hole len : Nat) (value : Tree)
    (i : Nat) (hh : hole < len) (hlen : len ≤ l.length) (hi : len ≤ i) :
    nth (adjustHeap l hole len value) i = nth l i := by
  obtain ⟨_, hlenq, hlt, heq, _⟩ := adjustLoop_spec len l hole len hh hlen
  rcases hA : adjustLoop len l hole hole len with ⟨l1, hole12⟩
  rcases hole12 with ⟨hole1, second1⟩
  rw [hA] at hlenq hlt heq
  simp only at hlenq hlt heq
  rw [adjustHeap, hA]
  dsimp only
  rw [heq] at hlt ⊢
  have hLframe : nth l1 i = nth l i := by
    have := adjustLoop_frame len l hole len i hh hi
    rw [hA] at this; exact this
  by_cases hev : (len % 2 == 0 && second1 == (len - 2) / 2) = true
  · rw [if_pos hev]
    simp only [Bool.and_eq_true, beq_iff_eq] at hev
    have h21 : 2 * (second1 + 1) - 1 = len - 1 := by omega
    rw [pushLoop_frame _ _ _ _ _ i (by omega)]
    rw [nth_set_ne l1 _ (by omega)]
    exact hLframe
  · rw [if_neg hev]
    rw [pushLoop_frame _ _ _ _ _ i (by omega)]
    exact hLframe

theorem popHeap_perm (l : List Tree) (hne : l ≠ []) :
    List.Perm l (nth l 0 :: popHeap l) := by
  rw [popHeap]
  by_cases h1 : l.length ≤ 1
  · rw [if_pos h1]
    obtain ⟨x, rfl⟩ : ∃ x, l = [x] := by
      match l, hne with
      | [x], _ => exact ⟨x, rfl⟩
      | x :: y :: t, _ => simp at h1
    exact List.Perm.refl _
  · rw [if_neg h1]
    have hn2 : 2 ≤ l.length := by omega
    have hperm : List.Perm
        (adjustHeap (l.set (l.length - 1) (nth l 0)) 0 (l.length - 1)
          (nth l (l.length - 1)))
        ((l.set (l.length - 1) (nth l 0)).set 0 (nth l (l.length - 1))) :=
      adjustHeap_perm _ 0 (l.length - 1) _ (by omega) (by simp)
    have htrans : List.Perm
        ((l.set (l.length - 1) (nth l 0)).set 0 (nth l (l.length - 1))) l := by
      have := perm_set_transpose l (l.length - 1) 0 (by omega) (by omega)
        (by omega) (nth l (l.length - 1))
      rwa [set_nth_self l (l.length - 1) (by omega)] at this
    have hA : List.Perm
        (adjustHeap (l.set (l.length - 1) (nth l 0)) 0 (l.length - 1)
          (nth l (l.length - 1))) l := hperm.trans htrans
    have hAlen : (adjustHeap (l.set (l.length - 1) (nth l 0)) 0 (l.length - 1)
        (nth l (l.length - 1))).length = l.length := hA.length_eq
    have hlast : nth (adjustHeap (l.set (l.length - 1) (nth l 0)) 0 (l.length - 1)
        (nth l (l.length - 1))) (l.length - 1) = nth l 0 := by
      rw [adjustHeap_frame _ 0 (l.length - 1) _ (l.length - 1) (by omega)
        (by simp) (Nat.le_refl _)]
      exact nth_set_self l (l.length - 1) (nth l 0) (by omega)
    have hcons := perm_last_cons_dropLast
      (adjustHeap (l.set (l.length - 1) (nth l 0)) 0 (l.length - 1)
        (nth l (l.length - 1)))
      (by
        intro hemp
        rw [hemp] at hAlen
        simp at hAlen
        omega)
    rw [hAlen, hlast] at hcons
    exact hA.symm.trans hcons

theorem heapPopsAux_perm :
    ∀ (fuel : Nat) (l : List Tree), l.length ≤ fuel →
      List.Perm (heapPopsAux fuel l) l := by
  intro fuel
  induction fuel with
  | zero =>
    intro l h
    have : l = [] := List.length_eq_zero.mp (by omega)
    subst this
    exact List.Perm.refl _
  | succ f ih =>
    intro l h
    rw [heapPopsAux]
    by_cases he : l.isEmpty = true
    · rw [if_pos he]
      have : l = [] := List.isEmpty_iff.mp he
      subst this
      exact List.Perm.refl _
    · rw [if_neg he]
      have hne : l ≠ [] := by simpa [List.isEmpty_iff] using he
      have hp := popHeap_perm l hne
      have hlen : (popHeap l).length + 1 = l.length := by
        have := hp.length_eq
        simpa using this.symm
      exact (((ih (popHeap l) (by omega)).cons (nth l 0)).trans hp.symm)

theorem heapPops_perm (l : List Tree) : List.Perm (heapPops l) l := by
  rw [heapPops]
  have hm := makeHeap_perm l
  exact (heapPopsAux_perm l.length (makeHeap l) (le_of_eq hm.length_eq)).trans hm

theorem sizeSum_perm {l l2 : List Tree} (h : List.Perm l l2) :
    sizeSum l = sizeSum l2 := (h.map Tree.size).sum_eq

/-! Node-tracking: each layout stage emits exactly its input nodes, in order. -/

theorem placeRowH_nodes (nodes : List Tree) :
    ∀ (xb y rh off : ℚ),
      (placeRowH nodes xb y rh off).map RenderRect.node_ = nodes := by
  induction nodes with
  | nil => intro xb y rh off; rfl
  | cons n ns ih =>
    intro xb y rh off
    rw [placeRowH]
    simp only [List.map_cons, ih]

theorem placeRowV_nodes (nodes : List Tree) :
    ∀ (xb y rw off : ℚ),
      (placeRowV nodes xb y rw off).map RenderRect.node_ = nodes := by
  induction nodes with
  | nil => intro xb y rw off; rfl
  | cons n ns ih =>
    intro xb y rw off
    rw [placeRowV]
    simp only [List.map_cons, ih]

theorem layoutrow_nodes (row : Row) :
    ((layoutrow row).1).map RenderRect.node_ = row.elements := by
  simp only [layoutrow]
  by_cases h : row.element_count = 0
  · rw [if_pos h]
    have : row.elements = [] := List.length_eq_zero.mp h
    simp [this]
  · rw [if_neg h]
    by_cases hor : row.rect.width < row.rect.height
    · rw [if_pos (by simpa using hor)]
      exact placeRowH_nodes row.elements _ _ _ _
    · rw [if_neg (by simpa using hor)]
      exact placeRowV_nodes row.elements _ _ _ _

theorem squarifyLoop_nodes :
    ∀ (rem : List Tree) (row : Row),
      (squarifyLoop rem row).map RenderRect.node_ = row.elements ++ rem := by
  intro rem
  induction rem with
  | nil =>
    intro row
    rw [squarifyLoop]
    by_cases h : row.element_count ≠ 0
    · rw [if_pos h, layoutrow_nodes]
      simp
    · rw [if_neg h]
      have : row.elements = [] := List.length_eq_zero.mp (by
        simpa [Row.element_count] using h)
      simp [this]
  | cons c cs ih =>
    intro row
    simp only [squarifyLoop]
    by_cases h : row.test c.size = true
    · rw [if_pos h, ih]
      simp [Row.push]
    · rw [if_neg h]
      simp only [List.map_append, layoutrow_nodes, ih, Row.init, Row.push]
      simp

theorem squarify_nodes (children : List Tree) (rect : Rect) :
    (squarify children rect).map RenderRect.node_ = heapPops children := by
  rw [squarify]
  cases h : heapPops children with
  | nil => rfl
  | cons first rest =>
    rw [squarifyLoop_nodes]
    simp [Row.init, Row.push]

theorem squarify_node_mem (children : List Tree) (rect : Rect)
    (rr : RenderRect) (h : rr ∈ squarify children rect) : rr.node_ ∈ children := by
  have hm : rr.node_ ∈ (squarify children rect).map RenderRect.node_ :=
    List.mem_map_of_mem _ h
  rw [squarify_nodes] at hm
  exact (heapPops_perm children).subset hm

theorem squarify_nil (rect : Rect) : squarify [] rect = [] := rfl

theorem squarify_length (children : List Tree) (rect : Rect) :
    (squarify children rect).length = children.length := by
  have h1 : ((squarify children rect).map RenderRect.node_).length =
      (heapPops children).length := by rw [squarify_nodes]
  have h2 : (heapPops children).length = children.length :=
    (heapPops_perm children).length_eq
  simpa [h2] using h1

theorem sizeOf_lt_of_mem_children {c t : Tree} (h : c ∈ t.children) :
    sizeOf c < sizeOf t := by
  cases t with
  | node s cs =>
    simp only [Tree.children] at h
    have := List.sizeOf_lt_of_mem h
    simp only [Tree.node.sizeOf_spec]
    omega

/-- Models treemap::Layout: the two output sequences of a layout call. -/
structure Layout where
  leaves : List RenderRect
  frames : List RenderRect

/-- Models treemap::layout_tree_traversal: a leaf contributes itself to the
leaves, an internal node contributes itself to the frames, lays out its
children with squarify, and recurses into each child with its assigned
rectangle. With the parallel branch preprocessed out (the repository never
defines ENABLE_PARALLEL_EXECUTION, and the parallel body is commented out),
both values of the parallelize flag execute the sequential loop; the flag is
threaded through exactly as in the source. -/
def layout_tree_traversal (root : Tree) (available_rect : Rect)
    (parallelize : Bool) : Layout :=
  if root.children.isEmpty then
    ⟨[⟨root, available_rect⟩], []⟩
  else
    ⟨(((squarify root.children available_rect).attach.map
        (fun x => layout_tree_traversal x.1.node_ x.1.rect_ parallelize)).map
          Layout.leaves).flatten,
     ⟨root, available_rect⟩ ::
      (((squarify root.children available_rect).attach.map
        (fun x => layout_tree_traversal x.1.node_ x.1.rect_ parallelize)).map
          Layout.frames).flatten⟩
termination_by sizeOf root
decreasing_by
  all_goals exact sizeOf_lt_of_mem_children (squarify_node_mem _ _ _ x.2)

/-! Node tracking for the instrumented pipeline: a successful checked stage
emits only nodes drawn from its input (needed for the recursion measure of
the checked traversal). -/

theorem push_checked_elements {r : Row} {e : Tree} {r2 : Row}
    (h : Row.push_checked r e = some r2) :
    r2.elements = r.elements ++ [e] := by
  rw [Row.push_checked] at h
  cases ha : aspect_worst_checked (r.size + e.size) r.max_element_size
      e.size r.w with
  | none => rw [ha] at h; simp at h
  | some cw =>
    rw [ha] at h
    simp only [Option.map_some'] at h
    have := Option.some.inj h
    rw [← this]

theorem init_checked_elements {rect : Rect} {e : Tree} {r2 : Row}
    (h : Row.init_checked rect e = some r2) : r2.elements = [e] := by
  rw [Row.init_checked] at h
  have := push_checked_elements h
  simpa using this

theorem placeRowH_checked_mem :
    ∀ (ns : List Tree) (xb y rh off : ℚ) (rs : List RenderRect),
      placeRowH_checked ns xb y rh off = some rs →
      ∀ rr ∈ rs, rr.node_ ∈ ns := by
  intro ns
  induction ns with
  | nil =>
    intro xb y rh off rs h rr hrr
    simp only [placeRowH_checked] at h
    have := Option.some.inj h
    rw [← this] at hrr
    simp at hrr
  | cons n ns ih =>
    intro xb y rh off rs h rr hrr
    simp only [placeRowH_checked] at h
    cases hd : divChecked n.size rh with
    | none => rw [hd] at h; simp at h
    | some w =>
      rw [hd] at h
      simp only [Option.some_bind] at h
      cases hrec : placeRowH_checked ns xb y rh (off + w) with
      | none => rw [hrec] at h; simp at h
      | some rest =>
        rw [hrec] at h
        simp only [Option.map_some'] at h
        have := Option.some.inj h
        rw [← this] at hrr
        rcases List.mem_cons.mp hrr with rfl | hmem
        · exact List.mem_cons_self _ _
        · exact List.mem_cons_of_mem n (ih _ _ _ _ rest hrec rr hmem)

theorem placeRowV_checked_mem :
    ∀ (ns : List Tree) (xb y rw2 off : ℚ) (rs : List RenderRect),
      placeRowV_checked ns xb y rw2 off = some rs →
      ∀ rr ∈ rs, rr.node_ ∈ ns := by
  intro ns
  induction ns with
  | nil =>
    intro xb y rw2 off rs h rr hrr
    simp only [placeRowV_checked] at h
    have := Option.some.inj h
    rw [← this] at hrr
    simp at hrr
  | cons n ns ih =>
    intro xb y rw2 off rs h rr hrr
    simp only [placeRowV_checked] at h
    cases hd : divChecked n.size rw2 with
    | none => rw [hd] at h; simp at h
    | some w =>
      rw [hd] at h
      simp only [Option.some_bind] at h
      cases hrec : placeRowV_checked ns xb y rw2 (off + w) with
      | none => rw [hrec] at h; simp at h
      | some rest =>
        rw [hrec] at h
        simp only [Option.map_some'] at h
        have := Option.some.inj h
        rw [← this] at hrr
        rcases List.mem_cons.mp hrr with rfl | hmem
        · exact List.mem_cons_self _ _
        · exact List.mem_cons_of_mem n (ih _ _ _ _ rest hrec rr hmem)

theorem layoutrow_checked_mem (row : Row) (p : List RenderRect × Rect)
    (h : layoutrow_checked row = some p) :
    ∀ rr ∈ p.1, rr.node_ ∈ row.elements := by
  intro rr hrr
  rw [layoutrow_checked] at h
  by_cases hec : row.element_count = 0
  · rw [if_pos hec] at h
    have := Option.some.inj h
    rw [← this] at hrr
    simp at hrr
  · rw [if_neg hec] at h
    by_cases hor : row.rect.width < row.rect.height
    · rw [if_pos hor] at h
      cases hd : divChecked row.size row.rect.width with
      | none => rw [hd] at h; simp at h
      | some rh =>
        rw [hd] at h
        simp only [Option.some_bind] at h
        cases hpl : placeRowH_checked row.elements row.rect.x row.rect.y rh 0 with
        | none => rw [hpl] at h; simp at h
        | some rs =>
          rw [hpl] at h
          simp only [Option.map_some'] at h
          have := Option.some.inj h
          rw [← this] at hrr
          exact placeRowH_checked_mem row.elements _ _ _ _ rs hpl rr hrr
    · rw [if_neg hor] at h
      cases hd : divChecked row.size row.rect.height with
      | none => rw [hd] at h; simp at h
      | some rw2 =>
        rw [hd] at h
        simp only [Option.some_bind] at h
        cases hpl : placeRowV_checked row.elements row.rect.x row.rect.y rw2 0 with
        | none => rw [hpl] at h; simp at h
        | some rs =>
          rw [hpl] at h
          simp only [Option.map_some'] at h
          have := Option.some.inj h
          rw [← this] at hrr
          exact placeRowV_checked_mem row.elements _ _ _ _ rs hpl rr hrr

theorem squarifyLoop_checked_mem :
    ∀ (rem : List Tree) (row : Row) (rs : List RenderRect),
      squarifyLoop_checked rem row = some rs →
      ∀ rr ∈ rs, rr.node_ ∈ row.elements ++ rem := by
  intro rem
  induction rem with
  | nil =>
    intro row rs h rr hrr
    simp only [squarifyLoop_checked] at h
    by_cases hec : row.element_count ≠ 0
    · rw [if_pos hec] at h
      cases hlr : layoutrow_checked row with
      | none => rw [hlr] at h; simp at h
      | some p =>
        rw [hlr] at h
        simp only [Option.map_some'] at h
        have := Option.some.inj h
        rw [← this] at hrr
        simpa using layoutrow_checked_mem row p hlr rr hrr
    · rw [if_neg hec] at h
      have := Option.some.inj h
      rw [← this] at hrr
      simp at hrr
  | cons largest rest ih =>
    intro row rs h rr hrr
    simp only [squarifyLoop_checked] at h
    cases ht : Row.test_checked row largest.size with
    | none => rw [ht] at h; simp at h
    | some t =>
      rw [ht] at h
      simp only [Option.some_bind] at h
      cases t with
      | true =>
        rw [if_pos rfl] at h
        cases hp : Row.push_checked row largest with
        | none => rw [hp] at h; simp at h
        | some r2 =>
          rw [hp] at h
          simp only [Option.some_bind] at h
          have hmem := ih r2 rs h rr hrr
          rw [push_checked_elements hp] at hmem
          simpa [List.append_assoc] using hmem
      | false =>
        rw [if_neg (by simp)] at h
        cases hlr : layoutrow_checked row with
        | none => rw [hlr] at h; simp at h
        | some flushed =>
          rw [hlr] at h
          simp only [Option.some_bind] at h
          cases hi : Row.init_checked flushed.2 largest with
          | none => rw [hi] at h; simp at h
          | some r2 =>
            rw [hi] at h
            simp only [Option.some_bind] at h
            cases hsl : squarifyLoop_checked rest r2 with
            | none => rw [hsl] at h; simp at h
            | some more =>
              rw [hsl] at h
              simp only [Option.map_some'] at h
              have := Option.some.inj h
              rw [← this] at hrr
              rcases List.mem_append.mp hrr with hfl | hmore
              · exact List.mem_append.mpr
                  (Or.inl (layoutrow_checked_mem row flushed hlr rr hfl))
              · have hmem := ih r2 more hsl rr hmore
                rw [init_checked_elements hi] at hmem
                exact List.mem_append.mpr (Or.inr (by simpa using hmem))

theorem squarify_checked_mem (children : List Tree) (rect : Rect)
    (rs : List RenderRect) (h : squarify_checked children rect = some rs) :
    ∀ rr ∈ rs, rr.node_ ∈ children := by
  intro rr hrr
  rw [squarify_checked] at h
  cases hhp : heapPops children with
  | nil =>
    rw [hhp] at h
    have := Option.some.inj h
    rw [← this] at hrr
    simp at hrr
  | cons first rest =>
    rw [hhp] at h
    have h2 : (Row.init_checked rect first).bind
        (fun r => squarifyLoop_checked rest r) = some rs := h
    clear h
    cases hi : Row.init_checked rect first with
    | none => rw [hi] at h2; simp at h2
    | some r =>
      rw [hi] at h2
      simp only [Option.some_bind] at h2
      have hmem := squarifyLoop_checked_mem rest r rs h2 rr hrr
      rw [init_checked_elements hi] at hmem
      have hin : rr.node_ ∈ heapPops children := by
        rw [hhp]
        simpa using hmem
      exact (heapPops_perm children).mem_iff.mp hin

/-- layout_tree_traversal with every division in squarify and layoutrow
instrumented: none as soon as any division by zero occurs anywhere in the
recursion. -/
def layout_tree_traversal_checked (root : Tree) (available_rect : Rect)
    (parallelize : Bool) : Option Layout :=
  if root.children.isEmpty then
    some ⟨[⟨root, available_rect⟩], []⟩
  else
    match hsq : squarify_checked root.children available_rect with
    | none => none
    | some rrs =>
      (rrs.attach.mapM (fun x =>
        layout_tree_traversal_checked x.1.node_ x.1.rect_ parallelize)).map
        (fun subs =>
          ⟨(subs.map Layout.leaves).flatten,
           ⟨root, available_rect⟩ :: (subs.map Layout.frames).flatten⟩)
termination_by sizeOf root
decreasing_by
  exact sizeOf_lt_of_mem_children
    (squarify_checked_mem _ _ _ hsq x.1 x.2)

/-- The tree of layout items produced by the traversal, mirroring the node
hierarchy: each item records the node, its assigned rectangle, and the items
of its children in squarify order. This structured view makes the
parent/sibling relationships of the flat output explicit. -/
inductive ItemTree : Type where
  | mk : Tree → Rect → List ItemTree → ItemTree

/-- The node of a layout item. -/
def ItemTree.node : ItemTree → Tree
  | ⟨n, _, _⟩ => n

/-- The rectangle of a layout item. -/
def ItemTree.rect : ItemTree → Rect
  | ⟨_, r, _⟩ => r

/-- The child items of a layout item. -/
def ItemTree.kids : ItemTree → List ItemTree
  | ⟨_, _, ks⟩ => ks

theorem ItemTree.sizeOf_lt_of_mem {k : ItemTree} {n : Tree} {r : Rect}
    {ks : List ItemTree} (h : k ∈ ks) : sizeOf k < sizeOf (ItemTree.mk n r ks) := by
  have := List.sizeOf_lt_of_mem h
  simp only [ItemTree.mk.sizeOf_spec]
  omega

/-- The item tree of one traversal in weight space. -/
def layoutTree (root : Tree) (available_rect : Rect) : ItemTree :=
  ⟨root, available_rect,
    (squarify root.children available_rect).attach.map
      (fun x => layoutTree x.1.node_ x.1.rect_)⟩
termination_by sizeOf root
decreasing_by
  exact sizeOf_lt_of_mem_children (squarify_node_mem _ _ _ x.2)

/-- The leaf items of an item tree, in traversal order. -/
def ItemTree.leavesOf : ItemTree → List RenderRect
  | ⟨n, r, ks⟩ =>
    if ks.isEmpty then [⟨n, r⟩]
    else (ks.attach.map (fun x => x.1.leavesOf)).flatten
termination_by it => sizeOf it
decreasing_by
  exact ItemTree.sizeOf_lt_of_mem x.2

/-- The frame items of an item tree, in traversal order. -/
def ItemTree.framesOf : ItemTree → List RenderRect
  | ⟨n, r, ks⟩ =>
    if ks.isEmpty then []
    else ⟨n, r⟩ :: (ks.attach.map (fun x => x.1.framesOf)).flatten
termination_by it => sizeOf it
decreasing_by
  exact ItemTree.sizeOf_lt_of_mem x.2

theorem attach_map_fun {α β : Type} (l : List α) (g : α → β) :
    (l.attach.map fun x => g x.1) = l.map g := List.attach_map_val l g

theorem traversal_eq_layoutTree_aux :
    ∀ (n : Nat) (root : Tree), sizeOf root ≤ n → ∀ (r : Rect) (par : Bool),
      layout_tree_traversal root r par =
        ⟨(layoutTree root r).leavesOf, (layoutTree root r).framesOf⟩ := by
  intro n
  induction n with
  | zero =>
    intro root h
    cases root with
    | node s cs => simp only [Tree.node.sizeOf_spec] at h; omega
  | succ m ih =>
    intro root hle r par
    by_cases hch : root.children.isEmpty
    · rw [layout_tree_traversal, layoutTree, if_pos hch]
      have hcs : root.children = [] := List.isEmpty_iff.mp hch
      rw [hcs, squarify_nil]
      simp [ItemTree.leavesOf, ItemTree.framesOf]
    · have hcs : root.children ≠ [] := by
        intro hnil; rw [hnil] at hch; exact hch rfl
      have hsq : squarify root.children r ≠ [] := by
        intro hnil
        have hl := squarify_length root.children r
        rw [hnil] at hl
        exact hcs (List.length_eq_zero.mp hl.symm)
      have hsub : ∀ x : {rr // rr ∈ squarify root.children r},
          layout_tree_traversal x.1.node_ x.1.rect_ par =
            ⟨(layoutTree x.1.node_ x.1.rect_).leavesOf,
             (layoutTree x.1.node_ x.1.rect_).framesOf⟩ := by
        intro x
        refine ih x.1.node_ ?_ x.1.rect_ par
        have := sizeOf_lt_of_mem_children (squarify_node_mem _ _ _ x.2)
        omega
      have hkne : ¬(((squarify root.children r).attach.map
          (fun x => layoutTree x.1.node_ x.1.rect_)).isEmpty = true) := by
        intro hemp
        have h2 := List.isEmpty_iff.mp hemp
        have h3 := congrArg List.length h2
        simp at h3
        exact hsq h3
      have hLeq : (((squarify root.children r).attach.map
          (fun x => layout_tree_traversal x.1.node_ x.1.rect_ par)).map
            Layout.leaves) =
          (((squarify root.children r).attach.map
            (fun x => layoutTree x.1.node_ x.1.rect_)).map ItemTree.leavesOf) := by
        rw [List.map_map, List.map_map]
        apply List.map_congr_left
        intro a _
        simp only [Function.comp_apply, hsub a]
      have hFeq : (((squarify root.children r).attach.map
          (fun x => layout_tree_traversal x.1.node_ x.1.rect_ par)).map
            Layout.frames) =
          (((squarify root.children r).attach.map
            (fun x => layoutTree x.1.node_ x.1.rect_)).map ItemTree.framesOf) := by
        rw [List.map_map, List.map_map]
        apply List.map_congr_left
        intro a _
        simp only [Function.comp_apply, hsub a]
      rw [layout_tree_traversal, layoutTree, if_neg hch]
      rw [ItemTree.leavesOf, ItemTree.framesOf, if_neg hkne, if_neg hkne]
      rw [attach_map_fun _ ItemTree.leavesOf, attach_map_fun _ ItemTree.framesOf]
      rw [Layout.mk.injEq]
      exact ⟨by rw [hLeq], by rw [hFeq]⟩

/-- The leaves and frames of the traversal are exactly the flattened leaf and
frame items of the item tree. -/
theorem traversal_eq_layoutTree (root : Tree) (r : Rect) (par : Bool) :
    layout_tree_traversal root r par =
      ⟨(layoutTree root r).leavesOf, (layoutTree root r).framesOf⟩ :=
  traversal_eq_layoutTree_aux (sizeOf root) root (Nat.le_refl _) r par

/-- The weight-space rectangle built by treemap::layout: the available
rectangle with the offset removed and both sides multiplied by the scaling
factor, so that its area equals the total size being placed. -/
def available_rect_scaled (available_rect : Rect) (scaling_factor : ℚ) : Rect :=
  ⟨0, 0, available_rect.width * scaling_factor,
   available_rect.height * scaling_factor⟩

/-- The rescale_rect lambda of treemap::layout: map a weight-space rectangle
back to device space by dividing by the scaling factor and restoring the
offset of the available rectangle. -/
def rescale_rect (scaling_factor : ℚ) (available_rect : Rect) (r : Rect) : Rect :=
  ⟨r.x / scaling_factor + available_rect.x,
   r.y / scaling_factor + available_rect.y,
   r.width / scaling_factor,
   r.height / scaling_factor⟩

/-- Models treemap::layout, the public entry point. The source computes
scaling_factor = sqrt(root.size() / area(available_rect)), which is
irrational in general; here the scaling factor is an explicit parameter, and
the theorems constrain it by the defining property of that square root
(non-negative, with square equal to the quotient). -/
def layout (root : Tree) (available_rect : Rect) (parallelize : Bool)
    (scaling_factor : ℚ) : Layout :=
  Layout.mk
    ((layout_tree_traversal root (available_rect_scaled available_rect scaling_factor)
        parallelize).leaves.map
      (fun rr => ⟨rr.node_, rescale_rect scaling_factor available_rect rr.rect_⟩))
    ((layout_tree_traversal root (available_rect_scaled available_rect scaling_factor)
        parallelize).frames.map
      (fun rr => ⟨rr.node_, rescale_rect scaling_factor available_rect rr.rect_⟩))

/-- The rescale_rect lambda with every division instrumented by divChecked:
returns none iff the source lambda divides by zero (producing non-finite
floats). -/
def rescale_rect_checked (scaling_factor : ℚ) (available_rect : Rect)
    (r : Rect) : Option Rect :=
  match divChecked r.x scaling_factor, divChecked r.y scaling_factor,
      divChecked r.width scaling_factor, divChecked r.height scaling_factor with
  | some x, some y, some w, some h =>
    some ⟨x + available_rect.x, y + available_rect.y, w, h⟩
  | _, _, _, _ => none

/-- treemap::layout with the rescale loop instrumented: none iff some
rescaled rectangle was produced by a division by zero. -/
def layout_checked (root : Tree) (available_rect : Rect) (parallelize : Bool)
    (scaling_factor : ℚ) : Option Layout :=
  ((layout_tree_traversal root
      (available_rect_scaled available_rect scaling_factor)
      parallelize).leaves.mapM
    (fun rr => (rescale_rect_checked scaling_factor available_rect
      rr.rect_).map (fun q => RenderRect.mk rr.node_ q))).bind
  (fun ls =>
    ((layout_tree_traversal root
        (available_rect_scaled available_rect scaling_factor)
        parallelize).frames.mapM
      (fun rr => (rescale_rect_checked scaling_factor available_rect
        rr.rect_).map (fun q => RenderRect.mk rr.node_ q))).map
      (fun fs => Layout.mk ls fs))

/-- treemap::layout with every division of the whole pipeline instrumented
(worst_aspect_ratio inside Row::test/push, the quotients of layoutrow, and
the rescale lambda): none exactly when the program computes a division by
zero, aborting at the first one in program order. -/
def layout_checked_full (root : Tree) (available_rect : Rect)
    (parallelize : Bool) (scaling_factor : ℚ) : Option Layout :=
  (layout_tree_traversal_checked root
      (available_rect_scaled available_rect scaling_factor) parallelize).bind
    (fun L =>
      (L.leaves.mapM (fun rr => (rescale_rect_checked scaling_factor
        available_rect rr.rect_).map
          (fun q => RenderRect.mk rr.node_ q))).bind
      (fun ls =>
        (L.frames.mapM (fun rr => (rescale_rect_checked scaling_factor
          available_rect rr.rect_).map
            (fun q => RenderRect.mk rr.node_ q))).map
        (fun fs => Layout.mk ls fs)))

/-- The seven-leaf tree of the squarified-treemap paper (sizes 6 6 4 3 2 2 1,
total 24), used as a concrete evaluation input. -/
def exTree : Tree :=
  .node 24 [.node 6 [], .node 6 [], .node 4 [], .node 3 [], .node 2 [],
    .node 2 [], .node 1 []]

/-- The 6 x 4 available rectangle of the paper example. -/
def exRect : Rect := ⟨0, 0, 6, 4⟩

/-- A leaf of size 5: first of two equal-sized siblings. -/
def cA : Tree := .node 5 []

/-- An internal node of size 5: second of two equal-sized siblings,
distinguishable from cA by its child list. -/
def cB : Tree := .node 5 [.node 5 []]

/-- A single zero-size leaf: the degenerate input for the zero-division
analysis of treemap::layout. -/
def zTree : Tree := .node 0 []

/-- A 100 x 100 available rectangle with positive dimensions, used with
zTree. -/
def zRect : Rect := ⟨0, 0, 100, 100⟩

/-- A well-formed tree inside the original claims' domain (non-negative
sizes, internal sums) containing a zero-size subtree: sizes
6 [6, 0 [0, 0]]. -/
def cTree : Tree :=
  .node 6 [.node 6 [], .node 0 [.node 0 [], .node 0 []]]

/-- A row holding one zero-size member, satisfying the row invariants of the
original area-conservation claim (non-negative sizes, size equal to the
member sum, non-negative dimensions, size at most the rectangle's area). -/
def rowZ : Row := ⟨⟨0, 0, 2, 4⟩, 2, [Tree.node 0 []], 0, 0, 0, 0⟩

/-- A two-element row in a 2 x 4 rectangle (taller than wide), used to
exercise the horizontal branch of layoutrow. -/
def rowH : Row :=
  ⟨⟨0, 0, 2, 4⟩, 2, [Tree.node 4 [], Tree.node 2 []], 6, 4, 2, 1⟩

/-- A one-element row in a 4 x 2 rectangle (wider than tall), used to
exercise the vertical branch of layoutrow. -/
def rowV : Row := ⟨⟨0, 0, 4, 2⟩, 2, [Tree.node 4 []], 4, 4, 4, 1⟩

/-- A one-element row in a square 3 x 3 rectangle, used to exercise the
orientation tie of layoutrow. -/
def rowSq : Row := ⟨⟨0, 0, 3, 3⟩, 3, [Tree.node 3 []], 3, 3, 3, 1⟩

/-- Apply a rectangle transformation to every item of an item tree. -/
def ItemTree.mapRect (f : Rect → Rect) : ItemTree → ItemTree
  | ⟨n, r, ks⟩ => ⟨n, f r, ks.attach.map (fun x => x.1.mapRect f)⟩
termination_by it => sizeOf it
decreasing_by
  exact ItemTree.sizeOf_lt_of_mem x.2

/-- The item tree of a full layout call in device space: the weight-space
item tree with every rectangle rescaled, mirroring the rescale loop of
treemap::layout. -/
def layoutItems (root : Tree) (available_rect : Rect) (scaling_factor : ℚ) :
    ItemTree :=
  (layoutTree root (available_rect_scaled available_rect scaling_factor)).mapRect
    (rescale_rect scaling_factor available_rect)

/-- All pairs drawn from the list satisfy the given relation. -/
def pairwiseOk (p : Rect → Rect → Bool) : List Rect → Bool
  | [] => true
  | r :: rs => rs.all (fun q => p r q) && pairwiseOk p rs

/-- No two sibling items of the item tree have overlapping rectangles,
recursively at every level. -/
def ItemTree.siblingsDisjoint : ItemTree → Bool
  | ⟨_, _, ks⟩ =>
    pairwiseOk (fun a b => !overlaps a b) (ks.map ItemTree.rect) &&
      ks.attach.all (fun x => x.1.siblingsDisjoint)
termination_by it => sizeOf it
decreasing_by
  exact ItemTree.sizeOf_lt_of_mem x.2

/-- Every child item's rectangle lies within its parent item's rectangle,
recursively at every level. -/
def ItemTree.childrenContained : ItemTree → Bool
  | ⟨_, r, ks⟩ =>
    (ks.map ItemTree.rect).all (fun q => within_bounds q r) &&
      ks.attach.all (fun x => x.1.childrenContained)
termination_by it => sizeOf it
decreasing_by
  exact ItemTree.sizeOf_lt_of_mem x.2

/-- For every internal item, the sum of the areas of its children's
rectangles equals the area of its own rectangle, recursively at every
level. -/
def ItemTree.areaConserved : ItemTree → Bool
  | ⟨_, r, ks⟩ =>
    (ks.isEmpty || decide (((ks.map ItemTree.rect).map area).sum = area r)) &&
      ks.attach.all (fun x => x.1.areaConserved)
termination_by it => sizeOf it
decreasing_by
  exact ItemTree.sizeOf_lt_of_mem x.2

/-! Geometry lemmas: rational characterizations of the boolean predicates. -/

theorem within_bounds_iff (r b : Rect) :
    within_bounds r b = true ↔
      b.x ≤ r.x ∧ b.y ≤ r.y ∧ r.x + r.width ≤ b.x + b.width ∧
        r.y + r.height ≤ b.y + b.height := by
  simp [within_bounds, and_assoc]

theorem overlaps_eq_false_iff (a b : Rect) :
    overlaps a b = false ↔
      a.x + a.width ≤ b.x ∨ a.y + a.height ≤ b.y ∨
      b.x + b.width ≤ a.x ∨ b.y + b.height ≤ a.y := by
  unfold overlaps less_than_or_equal rect_min rect_max
  simp only [Bool.not_eq_false', Bool.or_eq_true, decide_eq_true_eq]
  tauto

theorem within_bounds_refl (r : Rect) : within_bounds r r = true := by
  rw [within_bounds_iff]
  exact ⟨le_refl _, le_refl _, le_refl _, le_refl _⟩

theorem within_bounds_trans {r A B : Rect} (h1 : within_bounds r A = true)
    (h2 : within_bounds A B = true) : within_bounds r B = true := by
  rw [within_bounds_iff] at h1 h2 ⊢
  obtain ⟨a1, a2, a3, a4⟩ := h1
  obtain ⟨b1, b2, b3, b4⟩ := h2
  exact ⟨by linarith, by linarith, by linarith, by linarith⟩

theorem overlaps_false_of_within {a rem b : Rect}
    (hsep : overlaps a rem = false) (hb : within_bounds b rem = true) :
    overlaps a b = false := by
  rw [overlaps_eq_false_iff] at hsep ⊢
  rw [within_bounds_iff] at hb
  obtain ⟨b1, b2, b3, b4⟩ := hb
  rcases hsep with h | h | h | h
  · exact Or.inl (by linarith)
  · exact Or.inr (Or.inl (by linarith))
  · exact Or.inr (Or.inr (Or.inl (by linarith)))
  · exact Or.inr (Or.inr (Or.inr (by linarith)))

theorem within_bounds_rescale {r b : Rect} {sf : ℚ} (hsf : 0 < sf)
    (avail : Rect) (h : within_bounds r b = true) :
    within_bounds (rescale_rect sf avail r) (rescale_rect sf avail b) = true := by
  rw [within_bounds_iff] at h ⊢
  obtain ⟨h1, h2, h3, h4⟩ := h
  have hk : 0 < sf⁻¹ := inv_pos.mpr hsf
  simp only [rescale_rect, div_eq_mul_inv]
  refine ⟨?_, ?_, ?_, ?_⟩
  · have := mul_le_mul_of_nonneg_right h1 hk.le
    linarith
  · have := mul_le_mul_of_nonneg_right h2 hk.le
    linarith
  · have := mul_le_mul_of_nonneg_right h3 hk.le
    linarith
  · have := mul_le_mul_of_nonneg_right h4 hk.le
    linarith

theorem overlaps_rescale {a b : Rect} {sf : ℚ} (hsf : 0 < sf) (avail : Rect)
    (h : overlaps a b = false) :
    overlaps (rescale_rect sf avail a) (rescale_rect sf avail b) = false := by
  rw [overlaps_eq_false_iff] at h ⊢
  have hk : 0 < sf⁻¹ := inv_pos.mpr hsf
  simp only [rescale_rect, div_eq_mul_inv]
  rcases h with h | h | h | h
  · refine Or.inl ?_
    have := mul_le_mul_of_nonneg_right h hk.le
    linarith
  · refine Or.inr (Or.inl ?_)
    have := mul_le_mul_of_nonneg_right h hk.le
    linarith
  · refine Or.inr (Or.inr (Or.inl ?_))
    have := mul_le_mul_of_nonneg_right h hk.le
    linarith
  · refine Or.inr (Or.inr (Or.inr ?_))
    have := mul_le_mul_of_nonneg_right h hk.le
    linarith

theorem area_rescale (sf : ℚ) (avail r : Rect) :
    area (rescale_rect sf avail r) = area r * (sf * sf)⁻¹ := by
  simp only [area, rescale_rect, div_eq_mul_inv, mul_inv]
  ring

theorem rescale_zero (avail r : Rect) :
    rescale_rect 0 avail r = ⟨avail.x, avail.y, 0, 0⟩ := by
  simp [rescale_rect]

theorem overlaps_self_degenerate (p : Rect) (hp : p.width = 0) :
    overlaps p p = false := by
  rw [overlaps_eq_false_iff]
  exact Or.inl (by rw [hp]; linarith)

/-! Size-sum helper lemmas. -/

theorem sizeSum_nil : sizeSum [] = 0 := rfl

theorem sizeSum_cons (c : Tree) (cs : List Tree) :
    sizeSum (c :: cs) = c.size + sizeSum cs := by
  simp [sizeSum]

theorem sizeSum_append_one (l : List Tree) (c : Tree) :
    sizeSum (l ++ [c]) = sizeSum l + c.size := by
  simp [sizeSum]

theorem sizeSum_nonneg {l : List Tree} (h : ∀ n ∈ l, 0 ≤ n.size) :
    0 ≤ sizeSum l := by
  apply List.sum_nonneg
  intro q hq
  obtain ⟨m, hm, rfl⟩ := List.mem_map.mp hq
  exact h m hm

theorem size_eq_zero_of_sizeSum_zero {l : List Tree}
    (hnn : ∀ n ∈ l, 0 ≤ n.size) (hz : sizeSum l = 0) :
    ∀ n ∈ l, n.size = 0 := by
  intro n hn
  have hle : n.size ≤ sizeSum l := by
    apply List.single_le_sum
    · intro q hq
      obtain ⟨m, hm, rfl⟩ := List.mem_map.mp hq
      exact hnn m hm
    · exact List.mem_map_of_mem Tree.size hn
  have := hnn n hn
  linarith [hz ▸ hle]

theorem widthsSum_nonneg {l : List Tree} (rh : ℚ)
    (hnn : ∀ n ∈ l, 0 ≤ n.size) (hrh : 0 ≤ rh) :
    0 ≤ (l.map (fun n => n.size / rh)).sum := by
  apply List.sum_nonneg
  intro q hq
  obtain ⟨m, hm, rfl⟩ := List.mem_map.mp hq
  exact div_nonneg (hnn m hm) hrh

theorem widthsSum_eq (l : List Tree) (rh : ℚ) :
    (l.map (fun n => n.size / rh)).sum = sizeSum l / rh := by
  induction l with
  | nil => simp [sizeSum]
  | cons c cs ih =>
    simp only [List.map_cons, List.sum_cons, ih, sizeSum_cons]
    rw [add_div]

/-! The geometric specification of one placed row. -/

theorem placeRowH_spec :
    ∀ (nodes : List Tree) (xb y rh off W H : ℚ),
      (∀ n ∈ nodes, 0 ≤ n.size) →
      0 ≤ rh →
      (rh = 0 → ∀ n ∈ nodes, n.size = 0) →
      0 ≤ off →
      off + (nodes.map (fun n => n.size / rh)).sum ≤ W →
      rh ≤ H →
      (∀ rr ∈ placeRowH nodes xb y rh off,
          within_bounds rr.rect_ ⟨xb, y, W, H⟩ = true ∧
          area rr.rect_ = rr.node_.size ∧
          rr.rect_.y = y ∧ rr.rect_.height = rh ∧
          xb + off ≤ rr.rect_.x ∧ 0 ≤ rr.rect_.width ∧ 0 ≤ rr.rect_.height) ∧
      List.Pairwise (fun a b : RenderRect => overlaps a.rect_ b.rect_ = false)
        (placeRowH nodes xb y rh off) := by
  intro nodes
  induction nodes with
  | nil =>
    intro xb y rh off W H _ _ _ _ _ _
    exact ⟨fun rr h => absurd h (List.not_mem_nil rr), List.Pairwise.nil⟩
  | cons n ns ih =>
    intro xb y rh off W H hnn hrh hexact hoff hsum hH
    have hn0 : 0 ≤ n.size := hnn n (by simp)
    have hw0 : 0 ≤ n.size / rh := div_nonneg hn0 hrh
    have hrest0 : 0 ≤ (ns.map (fun m => m.size / rh)).sum :=
      widthsSum_nonneg rh (fun m hm => hnn m (by simp [hm])) hrh
    have hsumc : off + (n.size / rh + (ns.map (fun m => m.size / rh)).sum) ≤ W := by
      simpa using hsum
    have harea : area ⟨xb + off, y, n.size / rh, rh⟩ = n.size := by
      by_cases hz : rh = 0
      · have := hexact hz n (by simp)
        simp [area, hz, this]
      · simp [area, div_mul_cancel₀ _ hz]
    obtain ⟨ihmem, ihpw⟩ := ih xb y rh (off + n.size / rh) W H
      (fun m hm => hnn m (by simp [hm])) hrh
      (fun h0 m hm => hexact h0 m (by simp [hm]))
      (by linarith) (by linarith) hH
    rw [placeRowH]
    constructor
    · intro rr hrr
      rcases List.mem_cons.mp hrr with rfl | hrr2
      · refine ⟨?_, harea, rfl, rfl, le_refl _, hw0, hrh⟩
        rw [within_bounds_iff]
        refine ⟨by simpa using hoff, le_refl _, ?_, by simpa using hH⟩
        simp only
        linarith
      · obtain ⟨hwb, har, hy, hht, hx, hwidth, hhh⟩ := ihmem rr hrr2
        exact ⟨hwb, har, hy, hht, by linarith, hwidth, hhh⟩
    · refine List.Pairwise.cons ?_ ihpw
      intro b hb
      obtain ⟨_, _, hy, hht, hx, hwidth, _⟩ := ihmem b hb
      rw [overlaps_eq_false_iff]
      exact Or.inl (by simp only; linarith)

theorem placeRowV_spec :
    ∀ (nodes : List Tree) (xb y rw off W H : ℚ),
      (∀ n ∈ nodes, 0 ≤ n.size) →
      0 ≤ rw →
      (rw = 0 → ∀ n ∈ nodes, n.size = 0) →
      0 ≤ off →
      off + (nodes.map (fun n => n.size / rw)).sum ≤ H →
      rw ≤ W →
      (∀ rr ∈ placeRowV nodes xb y rw off,
          within_bounds rr.rect_ ⟨xb, y, W, H⟩ = true ∧
          area rr.rect_ = rr.node_.size ∧
          rr.rect_.x = xb ∧ rr.rect_.width = rw ∧
          y + off ≤ rr.rect_.y ∧ 0 ≤ rr.rect_.width ∧ 0 ≤ rr.rect_.height) ∧
      List.Pairwise (fun a b : RenderRect => overlaps a.rect_ b.rect_ = false)
        (placeRowV nodes xb y rw off) := by
  intro nodes
  induction nodes with
  | nil =>
    intro xb y rw off W H _ _ _ _ _ _
    exact ⟨fun rr h => absurd h (List.not_mem_nil rr), List.Pairwise.nil⟩
  | cons n ns ih =>
    intro xb y rw off W H hnn hrw hexact hoff hsum hW
    have hn0 : 0 ≤ n.size := hnn n (by simp)
    have hh0 : 0 ≤ n.size / rw := div_nonneg hn0 hrw
    have hrest0 : 0 ≤ (ns.map (fun m => m.size / rw)).sum :=
      widthsSum_nonneg rw (fun m hm => hnn m (by simp [hm])) hrw
    have hsumc : off + (n.size / rw + (ns.map (fun m => m.size / rw)).sum) ≤ H := by
      simpa using hsum
    have harea : area ⟨xb, y + off, rw, n.size / rw⟩ = n.size := by
      by_cases hz : rw = 0
      · have := hexact hz n (by simp)
        simp [area, hz, this]
      · simp [area]
        rw [mul_comm, div_mul_cancel₀ _ hz]
    obtain ⟨ihmem, ihpw⟩ := ih xb y rw (off + n.size / rw) W H
      (fun m hm => hnn m (by simp [hm])) hrw
      (fun h0 m hm => hexact h0 m (by simp [hm]))
      (by linarith) (by linarith) hW
    rw [placeRowV]
    constructor
    · intro rr hrr
      rcases List.mem_cons.mp hrr with rfl | hrr2
      · refine ⟨?_, harea, rfl, rfl, le_refl _, hrw, hh0⟩
        rw [within_bounds_iff]
        refine ⟨le_refl _, by simpa using hoff, by simpa using hW, ?_⟩
        simp only
        linarith
      · obtain ⟨hwb, har, hx, hwd, hy, hwidth, hhh⟩ := ihmem rr hrr2
        exact ⟨hwb, har, hx, hwd, by linarith, hwidth, hhh⟩
    · refine List.Pairwise.cons ?_ ihpw
      intro b hb
      obtain ⟨_, _, hx, hwd, hy, _, _⟩ := ihmem b hb
      rw [overlaps_eq_false_iff]
      exact Or.inr (Or.inl (by simp only; linarith))

/-- The full geometric specification of layoutrow under the invariants that
hold for every row of a layout call: non-negative member sizes summing to the
row size, non-negative rectangle sides, and a row size not exceeding the
rectangle area. The emitted rectangles lie in the rectangle, are pairwise
non-overlapping, have area exactly the member size, do not overlap the
leftover rectangle, and the leftover rectangle lies in the rectangle with
non-negative sides and area equal to the leftover size. -/
theorem layoutrow_spec (row : Row)
    (hnn : ∀ n ∈ row.elements, 0 ≤ n.size)
    (hsz : row.size = sizeSum row.elements)
    (hw : 0 ≤ row.rect.width) (hh : 0 ≤ row.rect.height)
    (hbound : row.size ≤ area row.rect) :
    (∀ rr ∈ (layoutrow row).1,
        within_bounds rr.rect_ row.rect = true ∧
        area rr.rect_ = rr.node_.size ∧
        0 ≤ rr.rect_.width ∧ 0 ≤ rr.rect_.height ∧
        overlaps rr.rect_ (layoutrow row).2 = false) ∧
    List.Pairwise (fun a b : RenderRect => overlaps a.rect_ b.rect_ = false)
      (layoutrow row).1 ∧
    within_bounds (layoutrow row).2 row.rect = true ∧
    0 ≤ (layoutrow row).2.width ∧ 0 ≤ (layoutrow row).2.height ∧
    area (layoutrow row).2 = area row.rect - row.size := by
  have hS : 0 ≤ row.size := hsz ▸ sizeSum_nonneg hnn
  have hSzero_of_area : area row.rect = 0 → row.size = 0 := fun h0 =>
    le_antisymm (h0 ▸ hbound) hS
  by_cases hec : row.element_count = 0
  · have hlr : layoutrow row = ([], row.rect) := by
      simp only [layoutrow, if_pos hec]
    have hel : row.elements = [] := List.length_eq_zero.mp hec
    have h0 : row.size = 0 := by rw [hsz, hel, sizeSum_nil]
    rw [hlr]
    exact ⟨fun rr h => absurd h (List.not_mem_nil rr), List.Pairwise.nil,
      within_bounds_refl _, hw, hh, by rw [h0]; ring⟩
  · by_cases hor : row.rect.width < row.rect.height
    · -- horizontal strip at the top
      have hlr : layoutrow row =
          (placeRowH row.elements row.rect.x row.rect.y
            (row.size / row.rect.width) 0,
           ⟨row.rect.x, row.rect.y + row.size / row.rect.width,
            row.rect.width, row.rect.height - row.size / row.rect.width⟩) := by
        simp only [layoutrow, if_neg hec, if_pos hor]
      have hrh0 : 0 ≤ row.size / row.rect.width := div_nonneg hS hw
      have hexact : row.size / row.rect.width = 0 →
          ∀ n ∈ row.elements, n.size = 0 := by
        intro h0
        rcases div_eq_zero_iff.mp h0 with hS0 | hW0
        · exact size_eq_zero_of_sizeSum_zero hnn (hsz ▸ hS0)
        · have ha : area row.rect = 0 := by simp [area, hW0]
          exact size_eq_zero_of_sizeSum_zero hnn (hsz ▸ hSzero_of_area ha)
      have hsumW : 0 + (row.elements.map
          (fun n => n.size / (row.size / row.rect.width))).sum ≤
            row.rect.width := by
        rw [zero_add, widthsSum_eq, ← hsz]
        by_cases hz : row.size / row.rect.width = 0
        · rw [hz, div_zero]; exact hw
        · have hSne : row.size ≠ 0 := by
            intro h0; exact hz (by rw [h0, zero_div])
          have hWne : row.rect.width ≠ 0 := by
            intro h0; exact hz (by rw [h0, div_zero])
          have : row.size / (row.size / row.rect.width) = row.rect.width := by
            field_simp
          rw [this]
      have hrhH : row.size / row.rect.width ≤ row.rect.height := by
        by_cases hWz : row.rect.width = 0
        · rw [hWz, div_zero]; exact hh
        · have hWpos : 0 < row.rect.width := lt_of_le_of_ne hw (Ne.symm hWz)
          rw [div_le_iff₀ hWpos]
          simp only [area] at hbound
          linarith [hbound]
      obtain ⟨hmem, hpw⟩ := placeRowH_spec row.elements row.rect.x row.rect.y
        (row.size / row.rect.width) 0 row.rect.width row.rect.height
        hnn hrh0 hexact (le_refl 0) hsumW hrhH
      have hremarea :
          area (⟨row.rect.x, row.rect.y + row.size / row.rect.width,
            row.rect.width, row.rect.height - row.size / row.rect.width⟩ : Rect) =
          area row.rect - row.size := by
        by_cases hWz : row.rect.width = 0
        · have hS0 : row.size = 0 := hSzero_of_area (by simp [area, hWz])
          simp [area, hWz, hS0]
        · simp only [area]
          field_simp
          ring
      rw [hlr]
      refine ⟨?_, hpw, ?_, by simpa using hw, by simp only; linarith, hremarea⟩
      · intro rr hrr
        obtain ⟨hwb, har, hy, hht, _, hwd, hhh⟩ := hmem rr hrr
        refine ⟨hwb, har, hwd, hhh, ?_⟩
        rw [overlaps_eq_false_iff]
        refine Or.inr (Or.inl ?_)
        simp only
        rw [hy, hht]
      · rw [within_bounds_iff]
        exact ⟨le_refl _, by simp only; linarith, by simp only; linarith,
          by simp only; linarith⟩
    · -- vertical strip at the left
      have hlr : layoutrow row =
          (placeRowV row.elements row.rect.x row.rect.y
            (row.size / row.rect.height) 0,
           ⟨row.rect.x + row.size / row.rect.height, row.rect.y,
            row.rect.width - row.size / row.rect.height, row.rect.height⟩) := by
        simp only [layoutrow, if_neg hec, if_neg hor]
      have hrw0 : 0 ≤ row.size / row.rect.height := div_nonneg hS hh
      have hexact : row.size / row.rect.height = 0 →
          ∀ n ∈ row.elements, n.size = 0 := by
        intro h0
        rcases div_eq_zero_iff.mp h0 with hS0 | hH0
        · exact size_eq_zero_of_sizeSum_zero hnn (hsz ▸ hS0)
        · have ha : area row.rect = 0 := by simp [area, hH0]
          exact size_eq_zero_of_sizeSum_zero hnn (hsz ▸ hSzero_of_area ha)
      have hsumH : 0 + (row.elements.map
          (fun n => n.size / (row.size / row.rect.height))).sum ≤
            row.rect.height := by
        rw [zero_add, widthsSum_eq, ← hsz]
        by_cases hz : row.size / row.rect.height = 0
        · rw [hz, div_zero]; exact hh
        · have hSne : row.size ≠ 0 := by
            intro h0; exact hz (by rw [h0, zero_div])
          have hHne : row.rect.height ≠ 0 := by
            intro h0; exact hz (by rw [h0, div_zero])
          have : row.size / (row.size / row.rect.height) = row.rect.height := by
            field_simp
          rw [this]
      have hrwW : row.size / row.rect.height ≤ row.rect.width := by
        by_cases hHz : row.rect.height = 0
        · rw [hHz, div_zero]; exact hw
        · have hHpos : 0 < row.rect.height := lt_of_le_of_ne hh (Ne.symm hHz)
          rw [div_le_iff₀ hHpos]
          simp only [area] at hbound
          linarith [hbound]
      obtain ⟨hmem, hpw⟩ := placeRowV_spec row.elements row.rect.x row.rect.y
        (row.size / row.rect.height) 0 row.rect.width row.rect.height
        hnn hrw0 hexact (le_refl 0) hsumH hrwW
      have hremarea :
          area (⟨row.rect.x + row.size / row.rect.height, row.rect.y,
            row.rect.width - row.size / row.rect.height, row.rect.height⟩ : Rect) =
          area row.rect - row.size := by
        by_cases hHz : row.rect.height = 0
        · have hS0 : row.size = 0 := hSzero_of_area (by simp [area, hHz])
          simp [area, hHz, hS0]
        · simp only [area]
          field_simp
      rw [hlr]
      refine ⟨?_, hpw, ?_, by simp only; linarith, by simpa using hh, hremarea⟩
      · intro rr hrr
        obtain ⟨hwb, har, hx, hwd, _, hwidth, hhh⟩ := hmem rr hrr
        refine ⟨hwb, har, hwidth, hhh, ?_⟩
        rw [overlaps_eq_false_iff]
        refine Or.inl ?_
        simp only
        rw [hx, hwd]
      · rw [within_bounds_iff]
        exact ⟨by simp only; linarith, le_refl _, by simp only; linarith,
          by simp only; linarith⟩

/-- The geometric specification of the squarify main loop: under the loop
invariant (row members have non-negative sizes summing to the row size, the
row rectangle has non-negative sides, the remaining elements have
non-negative sizes, and the row size plus the remaining sizes equals the row
rectangle area), all emitted rectangles lie within the row rectangle, have
area equal to their node's size, non-negative sides, and are pairwise
non-overlapping. -/
theorem squarifyLoop_spec :
    ∀ (rem : List Tree) (row : Row),
      (∀ n ∈ row.elements, 0 ≤ n.size) →
      row.size = sizeSum row.elements →
      0 ≤ row.rect.width → 0 ≤ row.rect.height →
      (∀ n ∈ rem, 0 ≤ n.size) →
      row.size + sizeSum rem = area row.rect →
      (∀ rr ∈ squarifyLoop rem row,
          within_bounds rr.rect_ row.rect = true ∧
          area rr.rect_ = rr.node_.size ∧
          0 ≤ rr.rect_.width ∧ 0 ≤ rr.rect_.height) ∧
      List.Pairwise (fun a b : RenderRect => overlaps a.rect_ b.rect_ = false)
        (squarifyLoop rem row) := by
  intro rem
  induction rem with
  | nil =>
    intro row hnn hsz hw hh _ harea
    have hbound : row.size ≤ area row.rect := by
      rw [← harea, sizeSum_nil]; linarith
    rw [squarifyLoop]
    by_cases h : row.element_count ≠ 0
    · rw [if_pos h]
      obtain ⟨hmem, hpw, _, _, _, _⟩ := layoutrow_spec row hnn hsz hw hh hbound
      refine ⟨fun rr hrr => ?_, hpw⟩
      obtain ⟨hwb, har, hwd, hht, _⟩ := hmem rr hrr
      exact ⟨hwb, har, hwd, hht⟩
    · rw [if_neg h]
      exact ⟨fun rr hrr => absurd hrr (List.not_mem_nil rr), List.Pairwise.nil⟩
  | cons c cs ih =>
    intro row hnn hsz hw hh hrnn harea
    have hc0 : 0 ≤ c.size := hrnn c (by simp)
    have hcsn : ∀ n ∈ cs, 0 ≤ n.size := fun n hn => hrnn n (by simp [hn])
    rw [sizeSum_cons] at harea
    simp only [squarifyLoop]
    by_cases ht : row.test c.size = true
    · rw [if_pos ht]
      have h1 : ∀ n ∈ (row.push c).elements, 0 ≤ n.size := by
        simp only [Row.push]
        intro n hn
        rcases List.mem_append.mp hn with h | h
        · exact hnn n h
        · rw [List.mem_singleton.mp h]; exact hc0
      have h2 : (row.push c).size = sizeSum (row.push c).elements := by
        simp only [Row.push, sizeSum_append_one, hsz]
      have h5 : (row.push c).size + sizeSum cs = area (row.push c).rect := by
        simp only [Row.push]
        linarith [harea]
      exact ih (row.push c) h1 h2 hw hh hcsn h5
    · rw [if_neg ht]
      have hbound : row.size ≤ area row.rect := by
        have h1 : 0 ≤ sizeSum cs := sizeSum_nonneg hcsn
        linarith [harea]
      obtain ⟨hmemf, hpwf, hremwb, hremw, hremh, hremarea⟩ :=
        layoutrow_spec row hnn hsz hw hh hbound
      have h1 : ∀ n ∈ (Row.init (layoutrow row).2 c).elements, 0 ≤ n.size := by
        simp only [Row.init, Row.push, List.nil_append]
        intro n hn
        rw [List.mem_singleton.mp hn]
        exact hc0
      have h2 : (Row.init (layoutrow row).2 c).size =
          sizeSum (Row.init (layoutrow row).2 c).elements := by
        simp [Row.init, Row.push, sizeSum]
      have h5 : (Row.init (layoutrow row).2 c).size + sizeSum cs =
          area (Row.init (layoutrow row).2 c).rect := by
        have : (Row.init (layoutrow row).2 c).size = c.size := by
          simp [Row.init, Row.push]
        rw [this]
        have hrect : (Row.init (layoutrow row).2 c).rect = (layoutrow row).2 := by
          simp [Row.init, Row.push]
        rw [hrect, hremarea]
        linarith [harea]
      obtain ⟨ihmem, ihpw⟩ := ih (Row.init (layoutrow row).2 c) h1 h2
        hremw hremh hcsn h5
      constructor
      · intro rr hrr
        rcases List.mem_append.mp hrr with h | h
        · obtain ⟨hwb, har, hwd, hht, _⟩ := hmemf rr h
          exact ⟨hwb, har, hwd, hht⟩
        · obtain ⟨hwb, har, hwd, hht⟩ := ihmem rr h
          exact ⟨within_bounds_trans hwb hremwb, har, hwd, hht⟩
      · rw [List.pairwise_append]
        refine ⟨hpwf, ihpw, ?_⟩
        intro a ha b hb
        obtain ⟨_, _, _, _, hsep⟩ := hmemf a ha
        obtain ⟨hwb, _, _, _⟩ := ihmem b hb
        exact overlaps_false_of_within hsep hwb

/-- The geometric specification of squarify: when the children's sizes are
non-negative and sum to the area of the rectangle (which has non-negative
sides), every emitted rectangle lies within the rectangle, has area equal to
its node's size and non-negative sides, and the rectangles are pairwise
non-overlapping. -/
theorem squarify_spec (children : List Tree) (rect : Rect)
    (hnn : ∀ n ∈ children, 0 ≤ n.size)
    (hw : 0 ≤ rect.width) (hh : 0 ≤ rect.height)
    (harea : sizeSum children = area rect) :
    (∀ rr ∈ squarify children rect,
        within_bounds rr.rect_ rect = true ∧
        area rr.rect_ = rr.node_.size ∧
        0 ≤ rr.rect_.width ∧ 0 ≤ rr.rect_.height) ∧
    List.Pairwise (fun a b : RenderRect => overlaps a.rect_ b.rect_ = false)
      (squarify children rect) := by
  rw [squarify]
  cases hp : heapPops children with
  | nil => exact ⟨fun rr h => absurd h (List.not_mem_nil rr), List.Pairwise.nil⟩
  | cons first rest =>
    have hperm := heapPops_perm children
    rw [hp] at hperm
    have hnnp : ∀ n ∈ first :: rest, 0 ≤ n.size := fun n hn =>
      hnn n (hperm.subset hn)
    have hsum : sizeSum (first :: rest) = sizeSum children := sizeSum_perm hperm
    have h1 : ∀ n ∈ (Row.init rect first).elements, 0 ≤ n.size := by
      simp only [Row.init, Row.push, List.nil_append]
      intro n hn
      rw [List.mem_singleton.mp hn]
      exact hnnp first (by simp)
    have h2 : (Row.init rect first).size =
        sizeSum (Row.init rect first).elements := by
      simp [Row.init, Row.push, sizeSum]
    have h5 : (Row.init rect first).size + sizeSum rest =
        area (Row.init rect first).rect := by
      have hs : (Row.init rect first).size = first.size := by
        simp [Row.init, Row.push]
      have hr : (Row.init rect first).rect = rect := by
        simp [Row.init, Row.push]
      rw [hs, hr, ← harea, ← hsum, sizeSum_cons]
    exact squarifyLoop_spec rest (Row.init rect first) h1 h2 hw hh
      (fun n hn => hnnp n (by simp [hn])) h5

/-! Well-formedness helpers. -/

theorem wfList_iff (l : List Tree) : wfList l = true ↔ ∀ c ∈ l, c.wf = true := by
  induction l with
  | nil => simp [wfList]
  | cons t ts ih =>
    rw [wfList]
    simp [ih, Bool.and_eq_true]

theorem wf_node_iff (s : ℚ) (cs : List Tree) :
    (Tree.node s cs).wf = true ↔
      0 ≤ s ∧ (cs = [] ∨ s = sizeSum cs) ∧ ∀ c ∈ cs, c.wf = true := by
  rw [Tree.wf]
  simp [wfList_iff, List.isEmpty_iff, Bool.and_eq_true, Bool.or_eq_true,
    and_assoc]

theorem wf_size_nonneg {t : Tree} (h : t.wf = true) : 0 ≤ t.size := by
  cases t with
  | node s cs =>
    rw [wf_node_iff] at h
    exact h.1

theorem wf_children {t : Tree} (h : t.wf = true) :
    ∀ c ∈ t.children, c.wf = true := by
  cases t with
  | node s cs =>
    rw [wf_node_iff] at h
    exact h.2.2

theorem wf_internal_size {t : Tree} (h : t.wf = true)
    (hne : t.children ≠ []) : t.size = sizeSum t.children := by
  cases t with
  | node s cs =>
    rw [wf_node_iff] at h
    rcases h.2.1 with h0 | h0
    · exact absurd h0 hne
    · exact h0

theorem pairwiseOk_iff (p : Rect → Rect → Bool) (l : List Rect) :
    pairwiseOk p l = true ↔ List.Pairwise (fun a b => p a b = true) l := by
  induction l with
  | nil => simp [pairwiseOk]
  | cons r rs ih =>
    rw [pairwiseOk]
    simp [List.all_eq_true, ih, List.pairwise_cons]

theorem layoutTree_def (t : Tree) (r : Rect) :
    layoutTree t r = ⟨t, r, (squarify t.children r).attach.map
      (fun x => layoutTree x.1.node_ x.1.rect_)⟩ := by
  rw [layoutTree]

theorem layoutTree_rect (t : Tree) (r : Rect) : (layoutTree t r).rect = r := by
  rw [layoutTree_def]
  rfl

/-- The master invariant of the weight-space traversal: on a well-formed tree
and a rectangle of non-negative sides whose area equals the tree's total
size, the item tree has pairwise non-overlapping siblings at every level,
children contained in their parents at every level, exact area conservation
at every level, and every leaf and frame item within the root rectangle. -/
theorem layoutTree_spec :
    ∀ (n : Nat) (t : Tree), sizeOf t ≤ n → ∀ (r : Rect),
      t.wf = true → 0 ≤ r.width → 0 ≤ r.height → area r = t.size →
      (layoutTree t r).siblingsDisjoint = true ∧
      (layoutTree t r).childrenContained = true ∧
      (layoutTree t r).areaConserved = true ∧
      (∀ rr ∈ (layoutTree t r).leavesOf, within_bounds rr.rect_ r = true) ∧
      (∀ rr ∈ (layoutTree t r).framesOf, within_bounds rr.rect_ r = true) := by
  intro n
  induction n with
  | zero =>
    intro t h
    cases t with
    | node s cs => simp only [Tree.node.sizeOf_spec] at h; omega
  | succ m ih =>
    intro t hle r hwf hw hh harea
    by_cases hch : t.children = []
    · rw [layoutTree_def, hch, squarify_nil]
      have hattach : ∀ (f : {rr // rr ∈ ([] : List RenderRect)} → ItemTree),
          ([] : List RenderRect).attach.map f = ([] : List ItemTree) :=
        fun f => rfl
      rw [hattach]
      refine ⟨?_, ?_, ?_, ?_, ?_⟩
      · simp [ItemTree.siblingsDisjoint, pairwiseOk]
      · simp [ItemTree.childrenContained]
      · simp [ItemTree.areaConserved]
      · intro rr hrr
        simp only [ItemTree.leavesOf, List.isEmpty_nil, if_pos] at hrr
        rcases List.mem_singleton.mp hrr with rfl
        exact within_bounds_refl r
      · intro rr hrr
        simp [ItemTree.framesOf] at hrr
    · have hnnc : ∀ c ∈ t.children, 0 ≤ c.size := fun c hc =>
        wf_size_nonneg (wf_children hwf c hc)
      have harea2 : sizeSum t.children = area r := by
        rw [harea, wf_internal_size hwf hch]
      obtain ⟨hsqmem, hsqpw⟩ := squarify_spec t.children r hnnc hw hh harea2
      have hrec : ∀ x : {rr // rr ∈ squarify t.children r},
          (layoutTree x.1.node_ x.1.rect_).siblingsDisjoint = true ∧
          (layoutTree x.1.node_ x.1.rect_).childrenContained = true ∧
          (layoutTree x.1.node_ x.1.rect_).areaConserved = true ∧
          (∀ rr ∈ (layoutTree x.1.node_ x.1.rect_).leavesOf,
            within_bounds rr.rect_ x.1.rect_ = true) ∧
          (∀ rr ∈ (layoutTree x.1.node_ x.1.rect_).framesOf,
            within_bounds rr.rect_ x.1.rect_ = true) := by
        intro x
        have hmemc := squarify_node_mem _ _ _ x.2
        refine ih x.1.node_ ?_ x.1.rect_ (wf_children hwf _ hmemc)
          (hsqmem x.1 x.2).2.2.1 (hsqmem x.1 x.2).2.2.2 (hsqmem x.1 x.2).2.1
        have := sizeOf_lt_of_mem_children hmemc
        omega
      have hrects : ((squarify t.children r).attach.map
          (fun x => layoutTree x.1.node_ x.1.rect_)).map ItemTree.rect =
          (squarify t.children r).map RenderRect.rect_ := by
        rw [List.map_map]
        have heq : ((fun it => ItemTree.rect it) ∘
            (fun (x : {rr // rr ∈ squarify t.children r}) =>
              layoutTree x.1.node_ x.1.rect_)) =
            (fun (x : {rr // rr ∈ squarify t.children r}) => x.1.rect_) := by
          funext x
          exact layoutTree_rect _ _
        rw [heq, attach_map_fun]
      have hkid : ∀ k ∈ (squarify t.children r).attach.map
          (fun x => layoutTree x.1.node_ x.1.rect_),
          ∃ x : {rr // rr ∈ squarify t.children r},
            k = layoutTree x.1.node_ x.1.rect_ := by
        intro k hk
        obtain ⟨x, _, rfl⟩ := List.mem_map.mp hk
        exact ⟨x, rfl⟩
      rw [layoutTree_def]
      have hkne : ¬((squarify t.children r).attach.map
          (fun x => layoutTree x.1.node_ x.1.rect_)).isEmpty = true := by
        intro hemp
        have h2 := List.isEmpty_iff.mp hemp
        have h3 := congrArg List.length h2
        simp [squarify_length] at h3
        exact hch h3
      refine ⟨?_, ?_, ?_, ?_, ?_⟩
      · rw [ItemTree.siblingsDisjoint, Bool.and_eq_true]
        constructor
        · rw [hrects, pairwiseOk_iff, List.pairwise_map]
          refine hsqpw.imp ?_
          intro a b hab
          simp [hab]
        · rw [List.all_eq_true]
          intro x hx
          obtain ⟨y, hy⟩ := hkid x.1 x.2
          rw [hy]
          exact (hrec y).1
      · rw [ItemTree.childrenContained, Bool.and_eq_true]
        constructor
        · rw [hrects, List.all_eq_true]
          intro q hq
          obtain ⟨rr, hrr, rfl⟩ := List.mem_map.mp hq
          exact (hsqmem rr hrr).1
        · rw [List.all_eq_true]
          intro x hx
          obtain ⟨y, hy⟩ := hkid x.1 x.2
          rw [hy]
          exact (hrec y).2.1
      · rw [ItemTree.areaConserved, Bool.and_eq_true]
        constructor
        · rw [Bool.or_eq_true]
          refine Or.inr ?_
          rw [decide_eq_true_eq, hrects]
          have hsum : ((squarify t.children r).map RenderRect.rect_).map area =
              ((squarify t.children r).map RenderRect.node_).map Tree.size := by
            rw [List.map_map, List.map_map]
            apply List.map_congr_left
            intro rr hrr
            exact (hsqmem rr hrr).2.1
          rw [hsum]
          have : (((squarify t.children r).map RenderRect.node_).map
              Tree.size).sum = sizeSum ((squarify t.children r).map
                RenderRect.node_) := rfl
          rw [this, squarify_nodes,
            sizeSum_perm (heapPops_perm t.children), harea2]
        · rw [List.all_eq_true]
          intro x hx
          obtain ⟨y, hy⟩ := hkid x.1 x.2
          rw [hy]
          exact (hrec y).2.2.1
      · rw [ItemTree.leavesOf, if_neg hkne]
        intro rr hrr
        obtain ⟨L, hL, hrrL⟩ := List.mem_flatten.mp hrr
        obtain ⟨x, _, rfl⟩ := List.mem_map.mp hL
        obtain ⟨y, hy⟩ := hkid x.1 x.2
        rw [hy] at hrrL
        exact within_bounds_trans ((hrec y).2.2.2.1 rr hrrL)
          (hsqmem y.1 y.2).1
      · rw [ItemTree.framesOf, if_neg hkne]
        intro rr hrr
        rcases List.mem_cons.mp hrr with rfl | hrr2
        · exact within_bounds_refl r
        · obtain ⟨L, hL, hrrL⟩ := List.mem_flatten.mp hrr2
          obtain ⟨x, _, rfl⟩ := List.mem_map.mp hL
          obtain ⟨y, hy⟩ := hkid x.1 x.2
          rw [hy] at hrrL
          exact within_bounds_trans ((hrec y).2.2.2.2 rr hrrL)
            (hsqmem y.1 y.2).1

/-! Transport of the invariants through the rescale step. -/

theorem ItemTree.mapRect_rect (f : Rect → Rect) (it : ItemTree) :
    (it.mapRect f).rect = f it.rect := by
  cases it with
  | mk nd r ks =>
    rw [ItemTree.mapRect]
    rfl

theorem siblingsDisjoint_mapRect :
    ∀ (n : Nat) (it : ItemTree), sizeOf it ≤ n → ∀ (f : Rect → Rect),
      (∀ a b, overlaps a b = false → overlaps (f a) (f b) = false) →
      it.siblingsDisjoint = true → (it.mapRect f).siblingsDisjoint = true := by
  intro n
  induction n with
  | zero =>
    intro it h
    cases it with
    | mk nd r ks => simp only [ItemTree.mk.sizeOf_spec] at h; omega
  | succ m ih =>
    intro it hle f hf hsd
    cases it with
    | mk nd r ks =>
      rw [ItemTree.siblingsDisjoint, Bool.and_eq_true] at hsd
      obtain ⟨h1, h2⟩ := hsd
      rw [ItemTree.mapRect, ItemTree.siblingsDisjoint, Bool.and_eq_true]
      constructor
      · have hmap : (ks.attach.map (fun x => x.1.mapRect f)).map ItemTree.rect =
            (ks.map ItemTree.rect).map f := by
          rw [List.map_map]
          have heq : ((fun it => ItemTree.rect it) ∘
              fun (x : {k // k ∈ ks}) => x.1.mapRect f) =
              fun (x : {k // k ∈ ks}) => f x.1.rect := by
            funext x
            exact ItemTree.mapRect_rect f x.1
          rw [heq, attach_map_fun ks (fun k => f k.rect), List.map_map]
          rfl
        rw [hmap, pairwiseOk_iff, List.pairwise_map]
        rw [pairwiseOk_iff] at h1
        refine h1.imp ?_
        intro a b hab
        simp only [Bool.not_eq_true'] at hab ⊢
        exact hf a b hab
      · rw [List.all_eq_true] at h2 ⊢
        intro x _
        obtain ⟨y, hymem, hyx⟩ := List.mem_map.mp x.2
        rw [← hyx]
        refine ih y.1 ?_ f hf (h2 y (List.mem_attach _ _))
        have := ItemTree.sizeOf_lt_of_mem (n := nd) (r := r) y.2
        omega

theorem childrenContained_mapRect :
    ∀ (n : Nat) (it : ItemTree), sizeOf it ≤ n → ∀ (f : Rect → Rect),
      (∀ a b, within_bounds a b = true → within_bounds (f a) (f b) = true) →
      it.childrenContained = true → (it.mapRect f).childrenContained = true := by
  intro n
  induction n with
  | zero =>
    intro it h
    cases it with
    | mk nd r ks => simp only [ItemTree.mk.sizeOf_spec] at h; omega
  | succ m ih =>
    intro it hle f hf hcc
    cases it with
    | mk nd r ks =>
      rw [ItemTree.childrenContained, Bool.and_eq_true] at hcc
      obtain ⟨h1, h2⟩ := hcc
      rw [ItemTree.mapRect, ItemTree.childrenContained, Bool.and_eq_true]
      constructor
      · have hmap : (ks.attach.map (fun x => x.1.mapRect f)).map ItemTree.rect =
            (ks.map ItemTree.rect).map f := by
          rw [List.map_map]
          have heq : ((fun it => ItemTree.rect it) ∘
              fun (x : {k // k ∈ ks}) => x.1.mapRect f) =
              fun (x : {k // k ∈ ks}) => f x.1.rect := by
            funext x
            exact ItemTree.mapRect_rect f x.1
          rw [heq, attach_map_fun ks (fun k => f k.rect), List.map_map]
          rfl
        rw [hmap, List.all_eq_true]
        rw [List.all_eq_true] at h1
        intro q hq
        obtain ⟨p, hp, rfl⟩ := List.mem_map.mp hq
        exact hf p r (h1 p hp)
      · rw [List.all_eq_true] at h2 ⊢
        intro x _
        obtain ⟨y, hymem, hyx⟩ := List.mem_map.mp x.2
        rw [← hyx]
        refine ih y.1 ?_ f hf (h2 y (List.mem_attach _ _))
        have := ItemTree.sizeOf_lt_of_mem (n := nd) (r := r) y.2
        omega

theorem areaConserved_mapRect :
    ∀ (n : Nat) (it : ItemTree), sizeOf it ≤ n → ∀ (f : Rect → Rect) (k : ℚ),
      (∀ r, area (f r) = area r * k) →
      it.areaConserved = true → (it.mapRect f).areaConserved = true := by
  intro n
  induction n with
  | zero =>
    intro it h
    cases it with
    | mk nd r ks => simp only [ItemTree.mk.sizeOf_spec] at h; omega
  | succ m ih =>
    intro it hle f k hf hac
    cases it with
    | mk nd r ks =>
      rw [ItemTree.areaConserved, Bool.and_eq_true] at hac
      obtain ⟨h1, h2⟩ := hac
      rw [ItemTree.mapRect, ItemTree.areaConserved, Bool.and_eq_true]
      constructor
      · rw [Bool.or_eq_true] at h1 ⊢
        rcases h1 with h1 | h1
        · refine Or.inl ?_
          have := List.isEmpty_iff.mp h1
          subst this
          rfl
        · refine Or.inr ?_
          rw [decide_eq_true_eq] at h1 ⊢
          have hmap : (ks.attach.map (fun x => x.1.mapRect f)).map ItemTree.rect =
              (ks.map ItemTree.rect).map f := by
            rw [List.map_map]
            have heq : ((fun it => ItemTree.rect it) ∘
                fun (x : {kk // kk ∈ ks}) => x.1.mapRect f) =
                fun (x : {kk // kk ∈ ks}) => f x.1.rect := by
              funext x
              exact ItemTree.mapRect_rect f x.1
            rw [heq, attach_map_fun ks (fun kk => f kk.rect), List.map_map]
            rfl
          rw [hmap, List.map_map]
          have h3 : (ks.map ItemTree.rect).map (area ∘ f) =
              (ks.map ItemTree.rect).map (fun q => area q * k) :=
            List.map_congr_left (fun a _ => hf a)
          rw [h3, List.sum_map_mul_right, h1, hf r]
      · rw [List.all_eq_true] at h2 ⊢
        intro x _
        obtain ⟨y, hymem, hyx⟩ := List.mem_map.mp x.2
        rw [← hyx]
        refine ih y.1 ?_ f k hf (h2 y (List.mem_attach _ _))
        have := ItemTree.sizeOf_lt_of_mem (n := nd) (r := r) y.2
        omega

theorem leavesOf_mapRect :
    ∀ (n : Nat) (it : ItemTree), sizeOf it ≤ n → ∀ (f : Rect → Rect),
      (it.mapRect f).leavesOf =
        it.leavesOf.map (fun rr => (⟨rr.node_, f rr.rect_⟩ : RenderRect)) := by
  intro n
  induction n with
  | zero =>
    intro it h
    cases it with
    | mk nd r ks => simp only [ItemTree.mk.sizeOf_spec] at h; omega
  | succ m ih =>
    intro it hle f
    cases it with
    | mk nd r ks =>
      rw [ItemTree.mapRect]
      by_cases hks : ks.isEmpty = true
      · have hnil : ks = [] := List.isEmpty_iff.mp hks
        subst hnil
        rw [show (([] : List ItemTree).attach.map
          (fun x => x.1.mapRect f)) = ([] : List ItemTree) from rfl]
        rw [ItemTree.leavesOf, ItemTree.leavesOf]
        simp
      · have hkne : ¬((ks.attach.map (fun x => x.1.mapRect f)).isEmpty = true) := by
          intro hemp
          have h2 := List.isEmpty_iff.mp hemp
          have h3 : ks = [] := by
            have := congrArg List.length h2
            simpa using this
          exact hks (List.isEmpty_iff.mpr h3)
        rw [ItemTree.leavesOf, ItemTree.leavesOf, if_neg hkne, if_neg hks]
        rw [attach_map_fun (ks.attach.map fun x => x.1.mapRect f)
          ItemTree.leavesOf]
        rw [List.map_map, List.map_flatten, List.map_map]
        congr 1
        apply List.map_congr_left
        intro x _
        have hsz : sizeOf x.1 ≤ m := by
          have := ItemTree.sizeOf_lt_of_mem (n := nd) (r := r) x.2
          omega
        simp only [Function.comp_apply]
        exact ih x.1 hsz f

theorem framesOf_mapRect :
    ∀ (n : Nat) (it : ItemTree), sizeOf it ≤ n → ∀ (f : Rect → Rect),
      (it.mapRect f).framesOf =
        it.framesOf.map (fun rr => (⟨rr.node_, f rr.rect_⟩ : RenderRect)) := by
  intro n
  induction n with
  | zero =>
    intro it h
    cases it with
    | mk nd r ks => simp only [ItemTree.mk.sizeOf_spec] at h; omega
  | succ m ih =>
    intro it hle f
    cases it with
    | mk nd r ks =>
      rw [ItemTree.mapRect]
      by_cases hks : ks.isEmpty = true
      · have hnil : ks = [] := List.isEmpty_iff.mp hks
        subst hnil
        rw [show (([] : List ItemTree).attach.map
          (fun x => x.1.mapRect f)) = ([] : List ItemTree) from rfl]
        rw [ItemTree.framesOf, ItemTree.framesOf]
        simp
      · have hkne : ¬((ks.attach.map (fun x => x.1.mapRect f)).isEmpty = true) := by
          intro hemp
          have h2 := List.isEmpty_iff.mp hemp
          have h3 : ks = [] := by
            have := congrArg List.length h2
            simpa using this
          exact hks (List.isEmpty_iff.mpr h3)
        rw [ItemTree.framesOf, ItemTree.framesOf, if_neg hkne, if_neg hks]
        rw [List.map_cons]
        congr 1
        rw [attach_map_fun (ks.attach.map fun x => x.1.mapRect f)
          ItemTree.framesOf]
        rw [List.map_map, List.map_flatten, List.map_map]
        congr 1
        apply List.map_congr_left
        intro x _
        have hsz : sizeOf x.1 ≤ m := by
          have := ItemTree.sizeOf_lt_of_mem (n := nd) (r := r) x.2
          omega
        simp only [Function.comp_apply]
        exact ih x.1 hsz f

/-! Rescale preservation for every admissible scaling factor. -/

theorem overlaps_rescale_all {sf : ℚ} (hsf : 0 ≤ sf) (avail : Rect) :
    ∀ a b, overlaps a b = false →
      overlaps (rescale_rect sf avail a) (rescale_rect sf avail b) = false := by
  rcases eq_or_lt_of_le hsf with h0 | hpos
  · intro a b _
    rw [← h0, rescale_zero, rescale_zero]
    exact overlaps_self_degenerate _ rfl
  · intro a b hab
    exact overlaps_rescale hpos avail hab

theorem within_rescale_all {sf : ℚ} (hsf : 0 ≤ sf) (avail : Rect) :
    ∀ a b, within_bounds a b = true →
      within_bounds (rescale_rect sf avail a) (rescale_rect sf avail b) = true := by
  rcases eq_or_lt_of_le hsf with h0 | hpos
  · intro a b _
    rw [← h0, rescale_zero, rescale_zero]
    exact within_bounds_refl _
  · intro a b hab
    exact within_bounds_rescale hpos avail hab

theorem rescale_scaled {sf : ℚ} (hsf : sf ≠ 0) (avail : Rect) :
    rescale_rect sf avail (available_rect_scaled avail sf) = avail := by
  simp only [rescale_rect, available_rect_scaled, zero_div, zero_add,
    mul_div_assoc, div_self hsf, mul_one]

/-- The flat output of treemap::layout is exactly the flattening of the
device-space item tree. -/
theorem layout_eq_layoutItems (root : Tree) (avail : Rect) (par : Bool)
    (sf : ℚ) :
    layout root avail par sf =
      ⟨(layoutItems root avail sf).leavesOf,
       (layoutItems root avail sf).framesOf⟩ := by
  rw [layout, traversal_eq_layoutTree, layoutItems]
  rw [leavesOf_mapRect (sizeOf (layoutTree root (available_rect_scaled avail sf)))
    _ (Nat.le_refl _) (rescale_rect sf avail)]
  rw [framesOf_mapRect (sizeOf (layoutTree root (available_rect_scaled avail sf)))
    _ (Nat.le_refl _) (rescale_rect sf avail)]

theorem scaled_dims_nonneg {avail : Rect} {sf : ℚ} (hw : 0 ≤ avail.width)
    (hh : 0 ≤ avail.height) (hsf : 0 ≤ sf) :
    0 ≤ (available_rect_scaled avail sf).width ∧
    0 ≤ (available_rect_scaled avail sf).height :=
  ⟨mul_nonneg hw hsf, mul_nonneg hh hsf⟩

theorem scaled_area {avail : Rect} {sf : ℚ} {root : Tree}
    (hchar : sf * sf * area avail = root.size) :
    area (available_rect_scaled avail sf) = root.size := by
  rw [← hchar]
  simp only [area, available_rect_scaled]
  ring

/-- A rectangle in weight space that lies within the scaled rectangle is
mapped by the rescale step into the available rectangle. -/
theorem rescale_into_avail {avail : Rect} {sf : ℚ} (hw : 0 < avail.width)
    (hh : 0 < avail.height) (hsf : 0 ≤ sf) :
    ∀ q : Rect, within_bounds q (available_rect_scaled avail sf) = true →
      within_bounds (rescale_rect sf avail q) avail = true := by
  intro q hq
  rcases eq_or_lt_of_le hsf with h0 | hpos
  · rw [← h0, rescale_zero, within_bounds_iff]
    dsimp only
    exact ⟨le_refl _, le_refl _, by linarith, by linarith⟩
  · have := within_bounds_rescale hpos avail hq
    rwa [rescale_scaled (ne_of_gt hpos) avail] at this

/-! Heap order: the pop sequence of the priority queue is sorted by size. -/

theorem sizeLt_false_iff (a b : Tree) : sizeLt a b = false ↔ b.size ≤ a.size := by
  simp [sizeLt, not_lt]

theorem sizeLt_true_iff (a b : Tree) : sizeLt a b = true ↔ a.size < b.size := by
  simp [sizeLt]

theorem domAt_refl (l : List Tree) (i : Nat) : domAt l i i := by
  rw [domAt, sizeLt_false_iff]

theorem pIter_le : ∀ (k j : Nat), pIter k j ≤ j := by
  intro k
  induction k with
  | zero => intro j; exact Nat.le_refl j
  | succ m ih =>
    intro j
    have h1 : pIter (m + 1) j = pIter m (parentIdx j) := rfl
    have h2 : parentIdx j ≤ j := by rw [parentIdx]; omega
    rw [h1]
    exact le_trans (ih (parentIdx j)) h2

theorem desc_le {top j : Nat} (h : desc top j) : top ≤ j := by
  obtain ⟨k, hk⟩ := h
  rw [← hk]
  exact pIter_le k j

theorem desc_refl (j : Nat) : desc j j := ⟨0, rfl⟩

theorem desc_parent {top j : Nat} (h : desc top j) (hne : j ≠ top) :
    desc top (parentIdx j) := by
  obtain ⟨k, hk⟩ := h
  match k, hk with
  | 0, hk => exact absurd hk hne
  | m + 1, hk => exact ⟨m, hk⟩

theorem desc_child {top j c : Nat} (h : desc top j) (hc : childIdx j c) :
    desc top c := by
  obtain ⟨k, hk⟩ := h
  refine ⟨k + 1, ?_⟩
  have hp : parentIdx c = j := by rw [parentIdx]; rcases hc with h1 | h1 <;> omega
  show pIter k (parentIdx c) = top
  rw [hp]
  exact hk

theorem heapChild_dom (l : List Tree) (s : Nat) :
    childIdx s (heapChild l s) ∧
    ∀ c, childIdx s c → domAt l (heapChild l s) c := by
  have h1 : 2 * (s + 1) - 1 = 2 * s + 1 := by omega
  have h2 : 2 * (s + 1) = 2 * s + 2 := by omega
  rw [heapChild, h1, h2]
  by_cases hch : sizeLt (nth l (2 * s + 2)) (nth l (2 * s + 1)) = true
  · rw [if_pos hch]
    refine ⟨Or.inl rfl, ?_⟩
    intro c hic
    rcases hic with rfl | rfl
    · exact domAt_refl l _
    · rw [domAt, sizeLt_false_iff]
      rw [sizeLt_true_iff] at hch
      exact le_of_lt hch
  · rw [if_neg hch]
    refine ⟨Or.inr rfl, ?_⟩
    intro c hic
    rcases hic with rfl | rfl
    · rw [domAt]
      exact Bool.not_eq_true _ ▸ eq_false_of_ne_true hch
    · exact domAt_refl l _

theorem pushLoop_heap (len top : Nat) :
    ∀ (fuel : Nat) (l : List Tree) (hole : Nat) (value : Tree),
      hole < len → len ≤ l.length → desc top hole → hole - top ≤ fuel →
      (∀ i c, childIdx i c → c < len → top ≤ i → i ≠ hole → domAt l i c) →
      (∀ c, childIdx hole c → c < len → sizeLt value (nth l c) = false) →
      (top < hole → ∀ c, childIdx hole c → c < len →
        domAt l (parentIdx hole) c) →
      ∀ i c, childIdx i c → c < len → top ≤ i →
        domAt (pushLoop fuel l hole top value) i c := by
  intro fuel
  induction fuel with
  | zero =>
    intro l hole value hh hlen hdesc hfuel ha hu2 _ i c hic hc hi
    have htop : hole = top := by have := desc_le hdesc; omega
    show domAt (l.set hole value) i c
    by_cases hieq : i = hole
    · subst hieq
      have hci : i ≠ c := by rcases hic with h | h <;> omega
      rw [domAt, nth_set_self l i value (lt_of_lt_of_le hh hlen),
        nth_set_ne l value hci]
      exact hu2 c hic hc
    · by_cases hceq : c = hole
      · exfalso
        rcases hic with h | h <;> omega
      · rw [domAt, nth_set_ne l value (fun h => hieq h.symm),
          nth_set_ne l value (fun h => hceq h.symm)]
        exact ha i c hic hc hi hieq
  | succ f ih =>
    intro l hole value hh hlen hdesc hfuel ha hu2 hu3 i c hic hc hi
    show domAt (pushLoop (f + 1) l hole top value) i c
    rw [pushLoop]
    by_cases hcond : (top < hole && sizeLt (nth l ((hole - 1) / 2)) value) = true
    · rw [if_pos hcond]
      simp only [Bool.and_eq_true, decide_eq_true_eq] at hcond
      obtain ⟨htoplt, hslt⟩ := hcond
      have hhne : hole ≠ top := by omega
      have hdescp : desc top ((hole - 1) / 2) := desc_parent hdesc hhne
      have hpgood : top ≤ (hole - 1) / 2 := desc_le hdescp
      refine ih (l.set hole (nth l ((hole - 1) / 2))) ((hole - 1) / 2) value
        (by omega) (by simpa using hlen) hdescp (by omega) ?_ ?_ ?_ i c hic hc hi
      · intro i' c' hic' hc' hi' hne'
        by_cases hie : i' = hole
        · subst hie
          have hcne : i' ≠ c' := by rcases hic' with h | h <;> omega
          rw [domAt, nth_set_self l i' _ (lt_of_lt_of_le hh hlen),
            nth_set_ne l _ hcne]
          exact hu3 htoplt c' hic' hc'
        · by_cases hce : c' = hole
          · exfalso
            rcases hic' with h | h <;> omega
          · rw [domAt, nth_set_ne l _ (fun h => hie h.symm),
              nth_set_ne l _ (fun h => hce h.symm)]
            exact ha i' c' hic' hc' hi' hie
      · intro c' hic' hc'
        by_cases hch : c' = hole
        · subst hch
          rw [nth_set_self l c' _ (lt_of_lt_of_le hh hlen), sizeLt_false_iff]
          rw [sizeLt_true_iff] at hslt
          exact le_of_lt hslt
        · rw [nth_set_ne l _ (fun h => hch h.symm), sizeLt_false_iff]
          have hdome : domAt l ((hole - 1) / 2) c' := by
            have hpne : (hole - 1) / 2 ≠ hole := by omega
            exact ha ((hole - 1) / 2) c' hic' hc' hpgood hpne
          rw [domAt, sizeLt_false_iff] at hdome
          rw [sizeLt_true_iff] at hslt
          exact le_trans hdome (le_of_lt hslt)
      · intro htp c' hic' hc'
        have hq : parentIdx ((hole - 1) / 2) ≠ hole := by
          have : parentIdx ((hole - 1) / 2) ≤ (hole - 1) / 2 := by
            rw [parentIdx]; omega
          omega
        have hdescq : desc top (parentIdx ((hole - 1) / 2)) :=
          desc_parent hdescp (by omega)
        have hqtop : top ≤ parentIdx ((hole - 1) / 2) := desc_le hdescq
        have hqp : childIdx (parentIdx ((hole - 1) / 2)) ((hole - 1) / 2) := by
          rw [childIdx, parentIdx]; omega
        have hqdomp : domAt l (parentIdx ((hole - 1) / 2)) ((hole - 1) / 2) :=
          ha _ _ hqp (by omega) hqtop hq
        by_cases hch : c' = hole
        · subst hch
          rw [domAt, nth_set_ne l _ (fun h => hq h.symm),
            nth_set_self l c' _ (lt_of_lt_of_le hh hlen), sizeLt_false_iff]
          rw [domAt, sizeLt_false_iff] at hqdomp
          exact hqdomp
        · rw [domAt, nth_set_ne l _ (fun h => hq h.symm), nth_set_ne l _ (fun h => hch h.symm),
            sizeLt_false_iff]
          have hpdomc : domAt l ((hole - 1) / 2) c' := by
            have hpne : (hole - 1) / 2 ≠ hole := by omega
            exact ha ((hole - 1) / 2) c' hic' hc' hpgood hpne
          rw [domAt, sizeLt_false_iff] at hpdomc hqdomp
          exact le_trans hpdomc hqdomp
    · rw [if_neg hcond]
      by_cases hieq : i = hole
      · subst hieq
        have hci : i ≠ c := by rcases hic with h | h <;> omega
        rw [domAt, nth_set_self l i value (lt_of_lt_of_le hh hlen),
          nth_set_ne l value hci]
        exact hu2 c hic hc
      · by_cases hceq : c = hole
        · subst hceq
          have hip : i = (c - 1) / 2 := by rcases hic with h | h <;> omega
          have hcpos : top < c := by rcases hic with h | h <;> omega
          have hstop : sizeLt (nth l ((c - 1) / 2)) value = false := by
            cases hB : sizeLt (nth l ((c - 1) / 2)) value
            · rfl
            · exfalso
              apply hcond
              simp [hB, hcpos]
          rw [domAt, nth_set_ne l value (fun h => hieq h.symm),
            nth_set_self l c value (lt_of_lt_of_le hh hlen), hip]
          exact hstop
        · rw [domAt, nth_set_ne l value (fun h => hieq h.symm),
            nth_set_ne l value (fun h => hceq h.symm)]
          exact ha i c hic hc hi hieq

theorem adjustLoop_heap (len H : Nat) :
    ∀ (fuel : Nat) (l : List Tree) (s : Nat),
      s < len → len ≤ l.length → desc H s → (len - 1) / 2 ≤ fuel + s →
      (∀ i c, childIdx i c → c < len → H ≤ i → i ≠ s → domAt l i c) →
      (H < s → ∀ c, childIdx s c → c < len → domAt l (parentIdx s) c) →
      (∀ i c, childIdx i c → c < len → H ≤ i →
          i ≠ (adjustLoop fuel l s s len).2.1 →
          domAt (adjustLoop fuel l s s len).1 i c) ∧
      (H < (adjustLoop fuel l s s len).2.1 →
        ∀ c, childIdx (adjustLoop fuel l s s len).2.1 c → c < len →
          domAt (adjustLoop fuel l s s len).1
            (parentIdx (adjustLoop fuel l s s len).2.1) c) ∧
      desc H (adjustLoop fuel l s s len).2.1 ∧
      (len - 1) / 2 ≤ (adjustLoop fuel l s s len).2.1 ∧
      (adjustLoop fuel l s s len).2.1 < len := by
  intro fuel
  induction fuel with
  | zero =>
    intro l s hs hlen hdesc hfuel ha hb
    refine ⟨ha, hb, hdesc, ?_, hs⟩
    show (len - 1) / 2 ≤ s
    omega
  | succ f ih =>
    intro l s hs hlen hdesc hfuel ha hb
    show (∀ i c, childIdx i c → c < len → H ≤ i →
        i ≠ (adjustLoop (f + 1) l s s len).2.1 →
        domAt (adjustLoop (f + 1) l s s len).1 i c) ∧ _
    rw [adjustLoop]
    by_cases hc : s < (len - 1) / 2
    · simp only [if_pos hc]
      obtain ⟨hchild, hdom⟩ := heapChild_dom l s
      have hHs : H ≤ s := desc_le hdesc
      have htrange : s < heapChild l s ∧ heapChild l s < len := by
        rcases hchild with h | h <;> omega
      set t := heapChild l s with ht
      set l2 := l.set s (nth l t) with hl2
      have hslen : s < l.length := lt_of_lt_of_le hs hlen
      refine ih l2 t htrange.2 (by simpa [hl2] using hlen)
        (desc_child hdesc hchild) (by omega) ?_ ?_
      · intro i c hic hclt hHi hit
        by_cases his : i = s
        · subst his
          have hic2 : i ≠ c := by rcases hic with h | h <;> omega
          rw [domAt, hl2, nth_set_self l _ _ hslen, nth_set_ne l _ hic2]
          exact hdom c hic
        · by_cases hcs : c = s
          · subst hcs
            have hip : i = parentIdx c := by
              rw [parentIdx]; rcases hic with h | h <;> omega
            have hHc : H < c := by
              have : parentIdx c < c := by
                rw [parentIdx]; rcases hic with h | h <;> omega
              omega
            have hbt : domAt l (parentIdx c) t := hb hHc t hchild htrange.2
            rw [domAt, hl2, nth_set_ne l _ (fun h => his h.symm),
              nth_set_self l _ _ hslen, hip]
            exact hbt
          · rw [domAt, hl2, nth_set_ne l _ (fun h => his h.symm),
              nth_set_ne l _ (fun h => hcs h.symm)]
            exact ha i c hic hclt hHi his
      · intro _ c hic hclt
        have hpt : parentIdx t = s := by
          rw [parentIdx]; rcases hchild with h | h <;> omega
        have hcns : c ≠ s := by rcases hic with h | h <;> omega
        rw [hpt, domAt, hl2, nth_set_self l _ _ hslen,
          nth_set_ne l _ (fun h => hcns h.symm)]
        exact ha t c hic hclt (by omega) (by omega)
    · simp only [if_neg hc]
      refine ⟨ha, hb, hdesc, ?_, hs⟩
      show (len - 1) / 2 ≤ s
      omega

theorem adjustHeap_heap (l : List Tree) (H len : Nat) (v : Tree)
    (hH : H < len) (hlen : len ≤ l.length)
    (pre : ∀ i c, childIdx i c → c < len → H < i → domAt l i c) :
    ∀ i c, childIdx i c → c < len → H ≤ i →
      domAt (adjustHeap l H len v) i c := by
  intro i c hic hc hHi
  obtain ⟨hA2, hB2, hdesc2, hbound2, hlt2⟩ :=
    adjustLoop_heap len H len l H hH hlen (desc_refl H) (by omega)
      (fun i' c' hic' hc' hHi' hne' => pre i' c' hic' hc' (by omega))
      (fun hs => absurd hs (lt_irrefl H))
  obtain ⟨_, hlen1, hlt1, heq1, _⟩ := adjustLoop_spec len l H len hH hlen
  rcases hAd : adjustLoop len l H H len with ⟨l1, hs12⟩
  rcases hs12 with ⟨hole1, second1⟩
  rw [hAd] at hA2 hB2 hdesc2 hbound2 hlt2 hlen1 hlt1 heq1
  simp only at hA2 hB2 hdesc2 hbound2 hlt2 hlen1 hlt1 heq1
  rw [adjustHeap, hAd]
  dsimp only
  rw [heq1] at hA2 hB2 hdesc2 hbound2 hlt2 hlt1 ⊢
  by_cases hev : (len % 2 == 0 && second1 == (len - 2) / 2) = true
  · rw [if_pos hev]
    simp only [Bool.and_eq_true, beq_iff_eq] at hev
    obtain ⟨hev1, hev2⟩ := hev
    have hlen2 : 2 ≤ len := by omega
    have h21 : 2 * (second1 + 1) - 1 = len - 1 := by omega
    have hs1lt : second1 < len - 1 := by omega
    have hs1len : second1 < l1.length := by omega
    rw [h21]
    refine pushLoop_heap len H (len - 1)
      (l1.set second1 (nth l1 (len - 1))) (len - 1) v
      (by omega) (by simp only [List.length_set]; omega)
      (desc_child hdesc2 (Or.inl (by omega)))
      (by omega) ?_ ?_ ?_ i c hic hc hHi
    · intro i' c' hic' hc' hHi' hne'
      by_cases his : i' = second1
      · subst his
        have hc'eq : c' = len - 1 := by rcases hic' with h | h <;> omega
        subst hc'eq
        rw [domAt, nth_set_self l1 _ _ hs1len,
          nth_set_ne l1 _ (show i' ≠ len - 1 by omega)]
        rw [sizeLt_false_iff]
      · by_cases hcs : c' = second1
        · subst hcs
          have hip : i' = parentIdx c' := by
            rw [parentIdx]; rcases hic' with h | h <;> omega
          have hHc : H < c' := by
            have : parentIdx c' < c' := by
              rw [parentIdx]; rcases hic' with h | h <;> omega
            omega
          have hbt : domAt l1 (parentIdx c') (len - 1) :=
            hB2 hHc (len - 1) (Or.inl (by omega)) (by omega)
          rw [domAt, nth_set_ne l1 _ (fun h => his h.symm),
            nth_set_self l1 _ _ hs1len, hip]
          exact hbt
        · rw [domAt, nth_set_ne l1 _ (fun h => his h.symm),
            nth_set_ne l1 _ (fun h => hcs h.symm)]
          exact hA2 i' c' hic' (by omega) hHi' his
    · intro c' hic' hc'
      exfalso
      rcases hic' with h | h <;> omega
    · intro _ c' hic' hc'
      exfalso
      rcases hic' with h | h <;> omega
  · rw [if_neg hev]
    have hnoch : len ≤ 2 * second1 + 1 := by
      simp only [Bool.and_eq_true, beq_iff_eq, not_and] at hev
      by_cases hpar : len % 2 = 0
      · have := hev (by simpa using hpar)
        omega
      · omega
    refine pushLoop_heap len H second1 l1 second1 v hlt1
      (by omega) hdesc2 (by omega) hA2 ?_ ?_ i c hic hc hHi
    · intro c' hic' hc'
      exfalso
      rcases hic' with h | h <;> omega
    · intro _ c' hic' hc'
      exfalso
      rcases hic' with h | h <;> omega

theorem makeHeapAux_heap (len : Nat) :
    ∀ (p : Nat) (l : List Tree), p < len → len ≤ l.length →
      (∀ i c, childIdx i c → c < len → p < i → domAt l i c) →
      ∀ i c, childIdx i c → c < len → domAt (makeHeapAux len p l) i c := by
  intro p
  induction p with
  | zero =>
    intro l hp hl hpre i c hic hc
    exact adjustHeap_heap l 0 len (nth l 0) hp hl hpre i c hic hc (Nat.zero_le i)
  | succ q ih =>
    intro l hp hl hpre i c hic hc
    show domAt (makeHeapAux len q (adjustHeap l (q + 1) len (nth l (q + 1)))) i c
    have hpost := adjustHeap_heap l (q + 1) len (nth l (q + 1)) hp hl
      (fun i' c' hic' hc' hqi => hpre i' c' hic' hc' hqi)
    have hlen2 : len ≤ (adjustHeap l (q + 1) len (nth l (q + 1))).length := by
      have hperm := adjustHeap_perm l (q + 1) len (nth l (q + 1)) hp hl
      rw [hperm.length_eq, List.length_set]
      exact hl
    exact ih (adjustHeap l (q + 1) len (nth l (q + 1))) (by omega) hlen2
      (fun i' c' hic' hc' hqi => hpost i' c' hic' hc' (by omega)) i c hic hc

theorem makeHeap_heap (l : List Tree) :
    ∀ i c, childIdx i c → c < l.length → domAt (makeHeap l) i c := by
  intro i c hic hc
  rw [makeHeap]
  by_cases h : l.length < 2
  · exfalso
    rcases hic with h1 | h1 <;> omega
  · rw [if_neg h]
    refine makeHeapAux_heap l.length ((l.length - 2) / 2) l (by omega)
      (le_refl _) ?_ i c hic hc
    intro i' c' hic' hc' hqi
    exfalso
    rcases hic' with h1 | h1 <;> omega

theorem nth_dropLast (l : List Tree) (j : Nat) (h : j < l.length - 1) :
    nth l.dropLast j = nth l j := by
  have h1 : j < l.dropLast.length := by simp only [List.length_dropLast]; omega
  have h2 : j < l.length := by omega
  rw [nth, nth, List.getD_eq_getElem?_getD, List.getD_eq_getElem?_getD,
    List.getElem?_eq_getElem h1, List.getElem?_eq_getElem h2,
    List.getElem_dropLast]

theorem popHeap_length (l : List Tree) (hne : l ≠ []) :
    (popHeap l).length = l.length - 1 := by
  have := (popHeap_perm l hne).length_eq
  simp only [List.length_cons] at this
  omega

theorem popHeap_heap (l : List Tree)
    (hHeap : ∀ i c, childIdx i c → c < l.length → domAt l i c) :
    ∀ i c, childIdx i c → c < (popHeap l).length → domAt (popHeap l) i c := by
  intro i c hic hc
  rw [popHeap] at hc ⊢
  by_cases h1 : l.length ≤ 1
  · exfalso
    rw [if_pos h1] at hc
    simp only [List.length_dropLast] at hc
    rcases hic with h | h <;> omega
  · rw [if_neg h1] at hc ⊢
    have hAperm := adjustHeap_perm (l.set (l.length - 1) (nth l 0)) 0
      (l.length - 1) (nth l (l.length - 1)) (by omega)
      (by simp only [List.length_set]; omega)
    have hAlen : (adjustHeap (l.set (l.length - 1) (nth l 0)) 0 (l.length - 1)
        (nth l (l.length - 1))).length = l.length := by
      rw [hAperm.length_eq]
      simp
    have hcA : c < l.length - 1 := by
      simp only [List.length_dropLast, hAlen] at hc
      exact hc
    have hiA : i < l.length - 1 := by rcases hic with h | h <;> omega
    have hpost := adjustHeap_heap (l.set (l.length - 1) (nth l 0)) 0
      (l.length - 1) (nth l (l.length - 1)) (by omega)
      (by simp only [List.length_set]; omega) ?_ i c hic hcA (Nat.zero_le i)
    · rw [domAt, nth_dropLast _ i (by omega), nth_dropLast _ c (by omega)]
      · exact hpost
    · intro i' c' hic' hc' _
      have hi'ne : l.length - 1 ≠ i' := by rcases hic' with h | h <;> omega
      have hc'ne : l.length - 1 ≠ c' := by omega
      rw [domAt, nth_set_ne l _ hi'ne, nth_set_ne l _ hc'ne]
      exact hHeap i' c' hic' (by omega)

theorem heap_root_dom (l : List Tree)
    (hHeap : ∀ i c, childIdx i c → c < l.length → domAt l i c) :
    ∀ j, j < l.length → domAt l 0 j := by
  intro j
  induction j using Nat.strong_induction_on with
  | _ j ih =>
    intro hj
    match j with
    | 0 => exact domAt_refl l 0
    | k + 1 =>
      have hchild : childIdx (k / 2) (k + 1) := by rw [childIdx]; omega
      have hpar : domAt l (k / 2) (k + 1) := hHeap (k / 2) (k + 1) hchild hj
      have hroot : domAt l 0 (k / 2) := ih (k / 2) (by omega) (by omega)
      rw [domAt, sizeLt_false_iff] at hpar hroot ⊢
      exact le_trans hpar hroot

theorem heapPopsAux_sorted :
    ∀ (fuel : Nat) (l : List Tree), l.length ≤ fuel →
      (∀ i c, childIdx i c → c < l.length → domAt l i c) →
      List.Pairwise (fun a b => sizeLt a b = false) (heapPopsAux fuel l) := by
  intro fuel
  induction fuel with
  | zero => intro l _ _; exact List.Pairwise.nil
  | succ f ih =>
    intro l hlen hHeap
    rw [heapPopsAux]
    by_cases he : l.isEmpty = true
    · rw [if_pos he]
      exact List.Pairwise.nil
    · rw [if_neg he]
      have hne : l ≠ [] := by simpa [List.isEmpty_iff] using he
      have hplen : (popHeap l).length = l.length - 1 := popHeap_length l hne
      have hlne : 1 ≤ l.length := by
        rcases l with _ | ⟨x, xs⟩
        · exact absurd rfl hne
        · simp
      refine List.Pairwise.cons ?_ (ih (popHeap l) (by omega) (popHeap_heap l hHeap))
      intro x hx
      have hxpop : x ∈ popHeap l :=
        (heapPopsAux_perm f (popHeap l) (by omega)).mem_iff.mp hx
      have hxl : x ∈ l := ((popHeap_perm l hne).mem_iff).mpr (List.mem_cons_of_mem _ hxpop)
      obtain ⟨j, hjlt, hjx⟩ := List.mem_iff_getElem.mp hxl
      have hdom := heap_root_dom l hHeap j hjlt
      rw [domAt] at hdom
      have hnthj : nth l j = x := by
        rw [nth, List.getD_eq_getElem?_getD, List.getElem?_eq_getElem hjlt, hjx]
        rfl
      rw [hnthj] at hdom
      exact hdom

theorem heapPops_sorted (l : List Tree) :
    List.Pairwise (fun a b => sizeLt a b = false) (heapPops l) := by
  rw [heapPops]
  have hlen : (makeHeap l).length = l.length := (makeHeap_perm l).length_eq
  refine heapPopsAux_sorted l.length (makeHeap l) (le_of_eq hlen) ?_
  intro i c hic hc
  exact makeHeap_heap l i c hic (hlen ▸ hc)

unseal Rat.mul Rat.add Rat.sub Rat.inv in
/-- C1 counterexample: cTree is well-formed with non-negative sizes in the
6 x 4 rectangle with scaling factor 1/2 (exactly sqrt(6/24)), inside the
original claim's domain, yet the fully instrumented layout aborts on a
division by zero (worst_aspect_ratio divides by w^2 * 0 when Row::test
probes the zero-size child) — in float arithmetic the computation continues
through inf/NaN and emits NaN sibling rectangles, on which overlaps returns
true, so the original no-overlap claim fails for zero-size nodes. -/
theorem c1_zero_size_counterexample :
    Tree.wf cTree = true ∧ (0 : ℚ) < exRect.width ∧ (0 : ℚ) < exRect.height ∧
    (0 : ℚ) ≤ (2 : ℚ)⁻¹ ∧
    (2 : ℚ)⁻¹ * (2 : ℚ)⁻¹ * area exRect = Tree.size cTree ∧
    layout_checked_full cTree exRect false (2 : ℚ)⁻¹ = none := by
  refine ⟨by decide, by decide, by decide, by decide, by decide, ?_⟩
  have hsq : squarify_checked cTree.children
      (available_rect_scaled exRect (2 : ℚ)⁻¹) = none := by rfl
  have htr : layout_tree_traversal_checked cTree
      (available_rect_scaled exRect (2 : ℚ)⁻¹) false = none := by
    rw [layout_tree_traversal_checked]
    rw [if_neg (by decide : ¬ cTree.children.isEmpty = true)]
    split
    · rfl
    · next rrs heq =>
        rw [hsq] at heq
        exact Option.noConfusion heq
  rw [layout_checked_full, htr]
  rfl

unseal Rat.mul Rat.add Rat.sub Rat.inv in
/-- C2 counterexample: the zero-size leaf in the 100 x 100 rectangle with
scaling factor 0 (exactly sqrt(0/10000)) is inside the original claim's
domain, yet the fully instrumented layout aborts on the rescale division by
the zero scaling factor — in float arithmetic the leaf's rectangle is NaN,
and within_bounds is false on it, so the original containment claim fails
for zero-size roots. -/
theorem c2_zero_size_counterexample :
    Tree.wf zTree = true ∧ (0 : ℚ) < zRect.width ∧ (0 : ℚ) < zRect.height ∧
    (0 : ℚ) ≤ 0 ∧ (0 : ℚ) * 0 * area zRect = Tree.size zTree ∧
    layout_checked_full zTree zRect false 0 = none := by
  refine ⟨by decide, by decide, by decide, by decide, by decide, ?_⟩
  have htr : layout_tree_traversal_checked zTree
      (available_rect_scaled zRect 0) false =
      some ⟨[⟨zTree, available_rect_scaled zRect 0⟩], []⟩ := by
    rw [layout_tree_traversal_checked]
    rfl
  rw [layout_checked_full, htr]
  rfl

unseal Rat.mul Rat.add Rat.sub Rat.inv in
/-- C3 counterexample: rowZ satisfies every row invariant of the original
claim (non-negative member sizes, size equal to the member sum,
non-negative dimensions, size at most the area) yet holds a zero-size
member: the instrumented layoutrow aborts on the member's width division
0/0 — in float arithmetic that member's rectangle has width NaN and area
NaN, not its size 0, so the original exact-area claim fails for zero-size
members. -/
theorem c3_zero_size_counterexample :
    (∀ n ∈ rowZ.elements, 0 ≤ n.size) ∧
    rowZ.size = sizeSum rowZ.elements ∧
    0 ≤ rowZ.rect.width ∧ 0 ≤ rowZ.rect.height ∧
    rowZ.size ≤ area rowZ.rect ∧
    layoutrow_checked rowZ = none :=
  ⟨by decide, by decide, by decide, by decide, by decide, by rfl⟩

/-- C1 (amended): for every layout call on a well-formed tree with strictly
positive sizes (on which no division of the source sees a zero divisor; for
zero-size nodes the program divides by zero and emits NaN rectangles, see
the counterexample) and a rectangle of positive area, with the scaling
factor the square root of size over area, any two sibling items of the
result have non-overlapping rectangles (the boolean overlaps is false for
the pair), at every level of the item hierarchy; and the flat leaves/frames
output of layout is exactly the flattening of that item hierarchy. -/
theorem c1_sibling_no_overlap (root : Tree) (available_rect : Rect)
    (par : Bool) (sf : ℚ)
    (hwf : root.wf = true) (hpos : root.allPos = true)
    (hw : 0 < available_rect.width) (hh : 0 < available_rect.height)
    (hsf : 0 ≤ sf)
    (hchar : sf * sf * area available_rect = root.size) :
    (layoutItems root available_rect sf).siblingsDisjoint = true ∧
    layout root available_rect par sf =
      ⟨(layoutItems root available_rect sf).leavesOf,
       (layoutItems root available_rect sf).framesOf⟩ := by
  obtain ⟨hda, hdb⟩ := scaled_dims_nonneg hw.le hh.le hsf
  obtain ⟨hsd, _, _, _, _⟩ := layoutTree_spec (sizeOf root) root (Nat.le_refl _)
    (available_rect_scaled available_rect sf) hwf hda hdb (scaled_area hchar)
  refine ⟨?_, layout_eq_layoutItems root available_rect par sf⟩
  exact siblingsDisjoint_mapRect
    (sizeOf (layoutTree root (available_rect_scaled available_rect sf)))
    _ (Nat.le_refl _) _ (overlaps_rescale_all hsf available_rect) hsd

/-- C2 (amended): for every layout call on a well-formed tree with strictly
positive sizes (on which no division of the source sees a zero divisor; a
zero-size root forces scaling_factor = 0 and the program divides every
coordinate by it, see the counterexample) and a rectangle of positive area,
every leaf and frame rectangle lies within the rectangle of its parent frame
(boundary inclusive), at every level of the item hierarchy, and every
rectangle of the flat layout output lies within available_rect. -/
theorem c2_containment (root : Tree) (available_rect : Rect) (par : Bool)
    (sf : ℚ)
    (hwf : root.wf = true) (hpos : root.allPos = true)
    (hw : 0 < available_rect.width) (hh : 0 < available_rect.height)
    (hsf : 0 ≤ sf)
    (hchar : sf * sf * area available_rect = root.size) :
    (layoutItems root available_rect sf).childrenContained = true ∧
    (∀ rr ∈ (layout root available_rect par sf).leaves,
      within_bounds rr.rect_ available_rect = true) ∧
    (∀ rr ∈ (layout root available_rect par sf).frames,
      within_bounds rr.rect_ available_rect = true) := by
  obtain ⟨hda, hdb⟩ := scaled_dims_nonneg hw.le hh.le hsf
  obtain ⟨_, hcc, _, hlv, hfr⟩ := layoutTree_spec (sizeOf root) root
    (Nat.le_refl _) (available_rect_scaled available_rect sf) hwf hda hdb
    (scaled_area hchar)
  refine ⟨?_, ?_, ?_⟩
  · exact childrenContained_mapRect
      (sizeOf (layoutTree root (available_rect_scaled available_rect sf)))
      _ (Nat.le_refl _) _ (within_rescale_all hsf available_rect) hcc
  · intro rr hrr
    rw [layout, traversal_eq_layoutTree] at hrr
    simp only at hrr
    obtain ⟨q, hq, rfl⟩ := List.mem_map.mp hrr
    exact rescale_into_avail hw hh hsf q.rect_ (hlv q hq)
  · intro rr hrr
    rw [layout, traversal_eq_layoutTree] at hrr
    simp only at hrr
    obtain ⟨q, hq, rfl⟩ := List.mem_map.mp hrr
    exact rescale_into_avail hw hh hsf q.rect_ (hfr q hq)

/-- C3 (amended): in every row of members with strictly positive sizes
placed by layoutrow (under the row invariants that hold in every layout
call; for a zero-size member the program computes area 0/0 = NaN, not the
size, see the counterexample), each member's emitted rectangle has area
exactly the member's size; and consequently, in a layout call on a
well-formed tree with strictly positive sizes and positive-area rectangle,
for every internal item the sum of its children's rectangle areas equals its
own rectangle area — exactly, hence within any floating-point tolerance. -/
theorem c3_area_conservation (root : Tree) (available_rect : Rect) (sf : ℚ)
    (hwf : root.wf = true) (hpos : root.allPos = true)
    (hw : 0 < available_rect.width) (hh : 0 < available_rect.height)
    (hsf : 0 ≤ sf)
    (hchar : sf * sf * area available_rect = root.size) :
    (∀ row : Row, (∀ n ∈ row.elements, 0 < n.size) →
      row.size = sizeSum row.elements →
      0 ≤ row.rect.width → 0 ≤ row.rect.height →
      row.size ≤ area row.rect →
      ∀ rr ∈ (layoutrow row).1, area rr.rect_ = rr.node_.size) ∧
    (layoutItems root available_rect sf).areaConserved = true := by
  constructor
  · intro row hnn hsz hrw hrh hbound rr hrr
    obtain ⟨hmem, _, _, _, _, _⟩ := layoutrow_spec row
      (fun n hn => le_of_lt (hnn n hn)) hsz hrw hrh hbound
    exact (hmem rr hrr).2.1
  · obtain ⟨hda, hdb⟩ := scaled_dims_nonneg hw.le hh.le hsf
    obtain ⟨_, _, hac, _, _⟩ := layoutTree_spec (sizeOf root) root
      (Nat.le_refl _) (available_rect_scaled available_rect sf) hwf hda hdb
      (scaled_area hchar)
    exact areaConserved_mapRect
      (sizeOf (layoutTree root (available_rect_scaled available_rect sf)))
      _ (Nat.le_refl _) _ ((sf * sf)⁻¹) (area_rescale sf available_rect) hac

/-- C5: layout with parallelize true and layout with parallelize false
produce the same leaves and frames — as multisets of node/rectangle pairs
and indeed as identical lists, because the parallel branch of the source is
preprocessed out (ENABLE_PARALLEL_EXECUTION is never defined, and its body
is commented out), so both calls run the same sequential traversal. -/
theorem c5_parallel_determinism (root : Tree) (available_rect : Rect)
    (sf : ℚ) :
    (Multiset.ofList (layout root available_rect true sf).leaves =
      Multiset.ofList (layout root available_rect false sf).leaves) ∧
    (Multiset.ofList (layout root available_rect true sf).frames =
      Multiset.ofList (layout root available_rect false sf).frames) := by
  have h : layout root available_rect true sf =
      layout root available_rect false sf := by
    rw [layout_eq_layoutItems, layout_eq_layoutItems]
  rw [h]
  exact ⟨rfl, rfl⟩

unseal Rat.mul Rat.add Rat.sub Rat.inv in
/-- C1 witness: the paper example (sizes 6 6 4 3 2 2 1 in a 6 x 4 rectangle,
scaling factor 1) satisfies every hypothesis and the conclusion. -/
theorem c1_sibling_no_overlap_witness :
    Tree.wf exTree = true ∧ Tree.allPos exTree = true ∧
    (0 : ℚ) < exRect.width ∧ (0 : ℚ) < exRect.height ∧
    (0 : ℚ) ≤ 1 ∧ (1 : ℚ) * 1 * area exRect = Tree.size exTree ∧
    ((layoutItems exTree exRect 1).siblingsDisjoint = true ∧
      layout exTree exRect false 1 =
        ⟨(layoutItems exTree exRect 1).leavesOf,
         (layoutItems exTree exRect 1).framesOf⟩) :=
  ⟨by decide, by decide, by decide, by decide, by decide, by decide,
   c1_sibling_no_overlap exTree exRect false 1 (by decide) (by decide)
     (by decide) (by decide) (by decide) (by decide)⟩

unseal Rat.mul Rat.add Rat.sub Rat.inv in
/-- C2 witness: the paper example satisfies every hypothesis and the
containment conclusion. -/
theorem c2_containment_witness :
    Tree.wf exTree = true ∧ Tree.allPos exTree = true ∧
    (0 : ℚ) < exRect.width ∧ (0 : ℚ) < exRect.height ∧
    (0 : ℚ) ≤ 1 ∧ (1 : ℚ) * 1 * area exRect = Tree.size exTree ∧
    ((layoutItems exTree exRect 1).childrenContained = true ∧
      (∀ rr ∈ (layout exTree exRect false 1).leaves,
        within_bounds rr.rect_ exRect = true) ∧
      (∀ rr ∈ (layout exTree exRect false 1).frames,
        within_bounds rr.rect_ exRect = true)) :=
  ⟨by decide, by decide, by decide, by decide, by decide, by decide,
   c2_containment exTree exRect false 1 (by decide) (by decide)
     (by decide) (by decide) (by decide) (by decide)⟩

unseal Rat.mul Rat.add Rat.sub Rat.inv in
/-- C3 witness: the paper example satisfies every hypothesis and the
area-conservation conclusion. -/
theorem c3_area_conservation_witness :
    Tree.wf exTree = true ∧ Tree.allPos exTree = true ∧
    (0 : ℚ) < exRect.width ∧ (0 : ℚ) < exRect.height ∧
    (0 : ℚ) ≤ 1 ∧ (1 : ℚ) * 1 * area exRect = Tree.size exTree ∧
    ((∀ row : Row, (∀ n ∈ row.elements, 0 < n.size) →
        row.size = sizeSum row.elements →
        0 ≤ row.rect.width → 0 ≤ row.rect.height →
        row.size ≤ area row.rect →
        ∀ rr ∈ (layoutrow row).1, area rr.rect_ = rr.node_.size) ∧
      (layoutItems exTree exRect 1).areaConserved = true) :=
  ⟨by decide, by decide, by decide, by decide, by decide, by decide,
   c3_area_conservation exTree exRect 1 (by decide) (by decide)
     (by decide) (by decide) (by decide) (by decide)⟩

/-- C6: Row::test(s) returns true exactly when
worst_aspect_ratio(size + s, max_element_size, s, w) ≤ current_worst;
worst_aspect_ratio computes max((w^2 max)/total^2, total^2/(w^2 min)); and
after the constructor's seed push and any sequence of further pushes,
current_worst equals worst_aspect_ratio(size, max_element_size,
min_element_size, w) of the row's current fields. -/
theorem c6_row_test_current_worst :
    (∀ (r : Row) (s : ℚ), r.test s = true ↔
      aspect_worst (r.size + s) r.max_element_size s r.w ≤ r.current_worst) ∧
    (∀ t m n w : ℚ, aspect_worst t m n w =
      max ((w * w * m) / (t * t)) ((t * t) / (w * w * n))) ∧
    (∀ (rect : Rect) (seed : Tree) (rest : List Tree),
      (rest.foldl Row.push (Row.init rect seed)).current_worst =
        aspect_worst (rest.foldl Row.push (Row.init rect seed)).size
          (rest.foldl Row.push (Row.init rect seed)).max_element_size
          (rest.foldl Row.push (Row.init rect seed)).min_element_size
          (rest.foldl Row.push (Row.init rect seed)).w) := by
  refine ⟨?_, fun t m n w => rfl, ?_⟩
  · intro r s
    simp [Row.test]
  · have hpush : ∀ (r : Row) (e : Tree),
        (Row.push r e).current_worst = aspect_worst (Row.push r e).size
          (Row.push r e).max_element_size (Row.push r e).min_element_size
          (Row.push r e).w := fun r e => rfl
    have hfold : ∀ (rest : List Tree) (r : Row),
        r.current_worst = aspect_worst r.size r.max_element_size
          r.min_element_size r.w →
        (rest.foldl Row.push r).current_worst = aspect_worst
          (rest.foldl Row.push r).size
          (rest.foldl Row.push r).max_element_size
          (rest.foldl Row.push r).min_element_size
          (rest.foldl Row.push r).w := by
      intro rest
      induction rest with
      | nil => intro r h; exact h
      | cons e es ih => intro r _; exact ih (Row.push r e) (hpush r e)
    intro rect seed rest
    exact hfold rest (Row.init rect seed) (hpush _ seed)

unseal Rat.mul Rat.add Rat.sub Rat.inv in
/-- C8 counterexample: the input [cA, cB] holds two children of equal size 5
with cA first, yet squarify consumes cB before cA (the node sequence of its
output is [cB, cA]), so ties are not consumed in input order. -/
theorem c8_counterexample :
    Tree.size cA = Tree.size cB ∧ cA ≠ cB ∧
    (squarify [cA, cB] ⟨0, 0, 2, 5⟩).map RenderRect.node_ = [cB, cA] := by
  refine ⟨rfl, ?_, by rfl⟩
  intro h
  injection h with h1 h2
  simp at h2

/-- C8 (amended): squarify consumes children in non-increasing size order:
the node sequence of its output is exactly the pop sequence of the priority
queue, which is a permutation of the children whose sizes are pairwise
non-increasing; the order of equal-size children is determined by the heap,
not by input order. -/
theorem c8_amended (children : List Tree) (available_rect : Rect) :
    (squarify children available_rect).map RenderRect.node_ =
      heapPops children ∧
    List.Perm (heapPops children) children ∧
    List.Pairwise (fun a b => sizeLt a b = false) (heapPops children) :=
  ⟨squarify_nodes children available_rect, heapPops_perm children,
   heapPops_sorted children⟩

/-- C4: contrary to the spec's degenerate-safety demand, a root of total
size 0 in a rectangle of positive dimensions forces scaling_factor = 0
(sqrt(0/area)), and the rescale step divides every coordinate by it: with
each division instrumented, layout_checked returns none — in float
arithmetic every produced rectangle is NaN, not a valid zero-area
rectangle. -/
theorem c4_zero_size_division (root : Tree) (avail : Rect) (par : Bool)
    (sf : ℚ)
    (hz : root.size = 0)
    (hw : 0 < avail.width) (hh : 0 < avail.height)
    (hchar : sf * sf * area avail = root.size) :
    layout_checked root avail par sf = none := by
  have hA : 0 < area avail := mul_pos hw hh
  have hsf0 : sf = 0 := by
    rw [hz] at hchar
    have h2 : sf * sf = 0 := by
      rcases mul_eq_zero.mp hchar with h | h
      · exact h
      · exact absurd h (ne_of_gt hA)
    exact mul_self_eq_zero.mp h2
  subst hsf0
  have hres : ∀ r : Rect, rescale_rect_checked 0 avail r = none := by
    intro r
    simp [rescale_rect_checked, divChecked]
  rw [layout_checked]
  by_cases hch : root.children.isEmpty
  · rw [layout_tree_traversal, if_pos hch]
    have hlv : List.mapM (fun rr => (rescale_rect_checked 0 avail rr.rect_).map
        (fun q => RenderRect.mk rr.node_ q))
        [RenderRect.mk root (available_rect_scaled avail 0)] = none := by
      rw [List.mapM_cons]
      simp [hres]
    rw [hlv]
    rfl
  · rw [layout_tree_traversal, if_neg hch]
    have hfr : ∀ rest : List RenderRect,
        (RenderRect.mk root (available_rect_scaled avail 0) :: rest).mapM
          (fun rr => (rescale_rect_checked 0 avail rr.rect_).map
            (fun q => RenderRect.mk rr.node_ q)) = none := by
      intro rest
      rw [List.mapM_cons]
      simp [hres]
    rw [hfr]
    simp

theorem placeRowH_length (nodes : List Tree) :
    ∀ (xb y rh off : ℚ), (placeRowH nodes xb y rh off).length = nodes.length := by
  induction nodes with
  | nil => intro xb y rh off; rfl
  | cons n ns ih => intro xb y rh off; simp [placeRowH, ih]

theorem placeRowV_length (nodes : List Tree) :
    ∀ (xb y rw2 off : ℚ), (placeRowV nodes xb y rw2 off).length = nodes.length := by
  induction nodes with
  | nil => intro xb y rw2 off; rfl
  | cons n ns ih => intro xb y rw2 off; simp [placeRowV, ih]

theorem placeRowH_get (nodes : List Tree) :
    ∀ (xb y rh off : ℚ) (i : Nat) (hi : i < nodes.length)
      (h2 : i < (placeRowH nodes xb y rh off).length),
      (placeRowH nodes xb y rh off)[i] =
        ⟨nodes[i],
         ⟨xb + off + ((nodes.take i).map (fun n => n.size / rh)).sum, y,
          (nodes[i]).size / rh, rh⟩⟩ := by
  induction nodes with
  | nil => intro xb y rh off i hi h2; exact absurd hi (by simp)
  | cons n ns ih =>
    intro xb y rh off i hi h2
    match i with
    | 0 => simp [placeRowH]
    | k + 1 =>
      have hk : k < ns.length := by simpa using hi
      have h2' : k < (placeRowH ns xb y rh (off + n.size / rh)).length := by
        rw [placeRowH_length]; exact hk
      have hunf : placeRowH (n :: ns) xb y rh off =
          ⟨n, ⟨xb + off, y, n.size / rh, rh⟩⟩ ::
            placeRowH ns xb y rh (off + n.size / rh) := rfl
      simp only [hunf, List.getElem_cons_succ]
      rw [ih xb y rh (off + n.size / rh) k hk h2']
      simp only [List.getElem_cons_succ, List.take_succ_cons, List.map_cons,
        List.sum_cons, RenderRect.mk.injEq, Rect.mk.injEq]
      refine ⟨?_, ?_, ?_, ?_, ?_⟩ <;> first | trivial | ring

theorem placeRowV_get (nodes : List Tree) :
    ∀ (xb y rw2 off : ℚ) (i : Nat) (hi : i < nodes.length)
      (h2 : i < (placeRowV nodes xb y rw2 off).length),
      (placeRowV nodes xb y rw2 off)[i] =
        ⟨nodes[i],
         ⟨xb, y + off + ((nodes.take i).map (fun n => n.size / rw2)).sum,
          rw2, (nodes[i]).size / rw2⟩⟩ := by
  induction nodes with
  | nil => intro xb y rw2 off i hi h2; exact absurd hi (by simp)
  | cons n ns ih =>
    intro xb y rw2 off i hi h2
    match i with
    | 0 => simp [placeRowV]
    | k + 1 =>
      have hk : k < ns.length := by simpa using hi
      have h2' : k < (placeRowV ns xb y rw2 (off + n.size / rw2)).length := by
        rw [placeRowV_length]; exact hk
      have hunf : placeRowV (n :: ns) xb y rw2 off =
          ⟨n, ⟨xb, y + off, rw2, n.size / rw2⟩⟩ ::
            placeRowV ns xb y rw2 (off + n.size / rw2) := rfl
      simp only [hunf, List.getElem_cons_succ]
      rw [ih xb y rw2 (off + n.size / rw2) k hk h2']
      simp only [List.getElem_cons_succ, List.take_succ_cons, List.map_cons,
        List.sum_cons, RenderRect.mk.injEq, Rect.mk.injEq]
      refine ⟨?_, ?_, ?_, ?_, ?_⟩ <;> first | trivial | ring

/-- C7: for every non-empty row, if the rectangle is strictly taller than
wide the row is a horizontal strip at the top (height size/width, the i-th
member at x offset equal to the sum of the previous members' widths, each of
width member.size/row_height), with the leftover rectangle below the strip;
if strictly wider than tall, the symmetric vertical rule applies (strip of
width size/height on the left, members stacked top-to-bottom, leftover to
the right). -/
theorem c7_layoutrow_orientation (row : Row) (hne : row.elements ≠ []) :
    (row.rect.width < row.rect.height →
      ((layoutrow row).2 =
          ⟨row.rect.x, row.rect.y + row.size / row.rect.width,
           row.rect.width, row.rect.height - row.size / row.rect.width⟩ ∧
        ∀ (i : Nat) (h2 : i < (layoutrow row).1.length)
          (hi : i < row.elements.length),
          ((layoutrow row).1)[i] =
            ⟨row.elements[i],
             ⟨row.rect.x + ((row.elements.take i).map
                 (fun n => n.size / (row.size / row.rect.width))).sum,
              row.rect.y,
              (row.elements[i]).size / (row.size / row.rect.width),
              row.size / row.rect.width⟩⟩)) ∧
    (row.rect.height < row.rect.width →
      ((layoutrow row).2 =
          ⟨row.rect.x + row.size / row.rect.height, row.rect.y,
           row.rect.width - row.size / row.rect.height, row.rect.height⟩ ∧
        ∀ (i : Nat) (h2 : i < (layoutrow row).1.length)
          (hi : i < row.elements.length),
          ((layoutrow row).1)[i] =
            ⟨row.elements[i],
             ⟨row.rect.x,
              row.rect.y + ((row.elements.take i).map
                (fun n => n.size / (row.size / row.rect.height))).sum,
              row.size / row.rect.height,
              (row.elements[i]).size / (row.size / row.rect.height)⟩⟩)) := by
  have hec : ¬ row.element_count = 0 := by
    rw [Row.element_count]
    exact fun h => hne (List.length_eq_zero.mp h)
  constructor
  · intro hor
    have hlr : layoutrow row =
        (placeRowH row.elements row.rect.x row.rect.y
          (row.size / row.rect.width) 0,
         ⟨row.rect.x, row.rect.y + row.size / row.rect.width,
          row.rect.width, row.rect.height - row.size / row.rect.width⟩) := by
      simp only [layoutrow, if_neg hec, if_pos hor]
    rw [hlr]
    refine ⟨rfl, ?_⟩
    intro i h2 hi
    rw [placeRowH_get row.elements row.rect.x row.rect.y
      (row.size / row.rect.width) 0 i hi h2]
    simp only [RenderRect.mk.injEq, Rect.mk.injEq]
    refine ⟨?_, ?_, ?_, ?_, ?_⟩ <;> first | trivial | ring
  · intro hor
    have hnor : ¬ row.rect.width < row.rect.height := lt_asymm hor
    have hlr : layoutrow row =
        (placeRowV row.elements row.rect.x row.rect.y
          (row.size / row.rect.height) 0,
         ⟨row.rect.x + row.size / row.rect.height, row.rect.y,
          row.rect.width - row.size / row.rect.height, row.rect.height⟩) := by
      simp only [layoutrow, if_neg hec, if_neg hnor]
    rw [hlr]
    refine ⟨rfl, ?_⟩
    intro i h2 hi
    rw [placeRowV_get row.elements row.rect.x row.rect.y
      (row.size / row.rect.height) 0 i hi h2]
    simp only [RenderRect.mk.injEq, Rect.mk.injEq]
    refine ⟨?_, ?_, ?_, ?_, ?_⟩ <;> first | trivial | ring

unseal Rat.mul Rat.add Rat.sub Rat.inv in
/-- C7 witness: the two-element row in a 2 x 4 rectangle and the one-element
row in a 4 x 2 rectangle satisfy the hypothesis, and each orientation branch
holds for the matching rectangle. -/
theorem c7_layoutrow_orientation_witness :
    (rowH.elements ≠ [] ∧
      (rowH.rect.width < rowH.rect.height →
        ((layoutrow rowH).2 =
            ⟨rowH.rect.x, rowH.rect.y + rowH.size / rowH.rect.width,
             rowH.rect.width, rowH.rect.height - rowH.size / rowH.rect.width⟩ ∧
          ∀ (i : Nat) (h2 : i < (layoutrow rowH).1.length)
            (hi : i < rowH.elements.length),
            ((layoutrow rowH).1)[i] =
              ⟨rowH.elements[i],
               ⟨rowH.rect.x + ((rowH.elements.take i).map
                   (fun n => n.size / (rowH.size / rowH.rect.width))).sum,
                rowH.rect.y,
                (rowH.elements[i]).size / (rowH.size / rowH.rect.width),
                rowH.size / rowH.rect.width⟩⟩))) ∧
    (rowV.elements ≠ [] ∧
      (rowV.rect.height < rowV.rect.width →
        ((layoutrow rowV).2 =
            ⟨rowV.rect.x + rowV.size / rowV.rect.height, rowV.rect.y,
             rowV.rect.width - rowV.size / rowV.rect.height,
             rowV.rect.height⟩ ∧
          ∀ (i : Nat) (h2 : i < (layoutrow rowV).1.length)
            (hi : i < rowV.elements.length),
            ((layoutrow rowV).1)[i] =
              ⟨rowV.elements[i],
               ⟨rowV.rect.x,
                rowV.rect.y + ((rowV.elements.take i).map
                  (fun n => n.size / (rowV.size / rowV.rect.height))).sum,
                rowV.size / rowV.rect.height,
                (rowV.elements[i]).size / (rowV.size / rowV.rect.height)⟩⟩))) :=
  ⟨⟨by simp [rowH], (c7_layoutrow_orientation rowH (by simp [rowH])).1⟩,
   ⟨by simp [rowV], (c7_layoutrow_orientation rowV (by simp [rowV])).2⟩⟩

/-- C10: for every non-empty row whose rectangle is exactly square, layoutrow
takes the vertical branch: a strip of width size/height on the left edge,
members stacked top-to-bottom, and the leftover is the right-hand
remainder. -/
theorem c10_square_vertical (row : Row) (hne : row.elements ≠ [])
    (hsq : row.rect.width = row.rect.height) :
    (layoutrow row).2 =
        ⟨row.rect.x + row.size / row.rect.height, row.rect.y,
         row.rect.width - row.size / row.rect.height, row.rect.height⟩ ∧
    ∀ (i : Nat) (h2 : i < (layoutrow row).1.length)
      (hi : i < row.elements.length),
      ((layoutrow row).1)[i] =
        ⟨row.elements[i],
         ⟨row.rect.x,
          row.rect.y + ((row.elements.take i).map
            (fun n => n.size / (row.size / row.rect.height))).sum,
          row.size / row.rect.height,
          (row.elements[i]).size / (row.size / row.rect.height)⟩⟩ := by
  have hec : ¬ row.element_count = 0 := by
    rw [Row.element_count]
    exact fun h => hne (List.length_eq_zero.mp h)
  have hnor : ¬ row.rect.width < row.rect.height := by rw [hsq]; exact lt_irrefl _
  have hlr : layoutrow row =
      (placeRowV row.elements row.rect.x row.rect.y
        (row.size / row.rect.height) 0,
       ⟨row.rect.x + row.size / row.rect.height, row.rect.y,
        row.rect.width - row.size / row.rect.height, row.rect.height⟩) := by
    simp only [layoutrow, if_neg hec, if_neg hnor]
  rw [hlr]
  refine ⟨rfl, ?_⟩
  intro i h2 hi
  rw [placeRowV_get row.elements row.rect.x row.rect.y
    (row.size / row.rect.height) 0 i hi h2]
  simp only [RenderRect.mk.injEq, Rect.mk.injEq]
  refine ⟨?_, ?_, ?_, ?_, ?_⟩ <;> first | trivial | ring

unseal Rat.mul Rat.add Rat.sub Rat.inv in
/-- C10 witness: the one-element row in the square 3 x 3 rectangle satisfies
both hypotheses and the vertical-branch conclusion. -/
theorem c10_square_vertical_witness :
    rowSq.elements ≠ [] ∧ rowSq.rect.width = rowSq.rect.height ∧
    ((layoutrow rowSq).2 =
        ⟨rowSq.rect.x + rowSq.size / rowSq.rect.height, rowSq.rect.y,
         rowSq.rect.width - rowSq.size / rowSq.rect.height,
         rowSq.rect.height⟩ ∧
      ∀ (i : Nat) (h2 : i < (layoutrow rowSq).1.length)
        (hi : i < rowSq.elements.length),
        ((layoutrow rowSq).1)[i] =
          ⟨rowSq.elements[i],
           ⟨rowSq.rect.x,
            rowSq.rect.y + ((rowSq.elements.take i).map
              (fun n => n.size / (rowSq.size / rowSq.rect.height))).sum,
            rowSq.size / rowSq.rect.height,
            (rowSq.elements[i]).size / (rowSq.size / rowSq.rect.height)⟩⟩) :=
  ⟨by simp [rowSq], by decide,
   c10_square_vertical rowSq (by simp [rowSq]) (by decide)⟩

theorem find_first_iff (p : RenderRect → Bool) :
    ∀ (l : List RenderRect) (rr : RenderRect),
      l.find? p = some rr ↔
        ∃ i, ∃ hi : i < l.length,
          (∀ j, ∀ hj : j < i, p (l[j]) = false) ∧ p (l[i]) = true ∧ l[i] = rr := by
  intro l
  induction l with
  | nil =>
    intro rr
    constructor
    · intro h; simp at h
    · rintro ⟨i, hi, _⟩; simp at hi
  | cons a l ih =>
    intro rr
    cases hpa : p a with
    | true =>
      rw [List.find?_cons_of_pos _ hpa]
      constructor
      · intro h
        have ha : a = rr := Option.some.inj h
        exact ⟨0, by simp, fun j hj => absurd hj (Nat.not_lt_zero j),
          by simpa using hpa, by simpa using ha⟩
      · rintro ⟨i, hi, hbef, hpi, hival⟩
        match i with
        | 0 =>
          simp only [List.getElem_cons_zero] at hival
          rw [hival]
        | k + 1 =>
          have h0 := hbef 0 (by omega)
          simp only [List.getElem_cons_zero] at h0
          rw [hpa] at h0
          exact absurd h0 (by simp)
    | false =>
      rw [List.find?_cons_of_neg _ (by simp [hpa])]
      rw [ih rr]
      constructor
      · rintro ⟨i, hi, hbef, hpi, hival⟩
        refine ⟨i + 1, by simpa using Nat.succ_lt_succ hi, ?_,
          by simpa using hpi, by simpa using hival⟩
        intro j hj
        match j with
        | 0 => simpa using hpa
        | m + 1 => simpa using hbef m (by omega)
      · rintro ⟨i, hi, hbef, hpi, hival⟩
        match i with
        | 0 =>
          exfalso
          simp only [List.getElem_cons_zero] at hpi
          rw [hpa] at hpi
          exact absurd hpi (by simp)
        | k + 1 =>
          refine ⟨k, by simpa using hi, ?_, by simpa using hpi,
            by simpa using hival⟩
          intro j hj
          simpa using hbef (j + 1) (by omega)

/-- C9: hit_test returns the node of the first item in list order whose
rectangle, translated by the offset, contains the test point (boundary
inclusive), and none when no translated rectangle contains it; the
containment test is the conjunction of the four coordinate comparisons. -/
theorem c9_hit_test_first_match (test : Vec2) (rects : List RenderRect)
    (offset : Vec2) :
    (hit_test test rects offset = none ↔
      ∀ rr ∈ rects, hit_test_pred offset test rr = false) ∧
    (∀ t : Tree, hit_test test rects offset = some t ↔
      ∃ i, ∃ hi : i < rects.length,
        (∀ j, ∀ hj : j < i, hit_test_pred offset test (rects[j]) = false) ∧
        hit_test_pred offset test (rects[i]) = true ∧
        (rects[i]).node_ = t) ∧
    (∀ rr : RenderRect, hit_test_pred offset test rr = true ↔
      (offset.x + rr.rect_.x ≤ test.x ∧
        test.x ≤ offset.x + rr.rect_.x + rr.rect_.width ∧
        offset.y + rr.rect_.y ≤ test.y ∧
        test.y ≤ offset.y + rr.rect_.y + rr.rect_.height)) := by
  refine ⟨?_, ?_, ?_⟩
  · rw [hit_test]
    cases hf : rects.find? (hit_test_pred offset test) with
    | none =>
      constructor
      · intro _ rr hrr
        simpa using List.find?_eq_none.mp hf rr hrr
      · intro _
        rfl
    | some rr =>
      constructor
      · intro h
        exact Option.noConfusion h
      · intro hall
        have hmem := List.mem_of_find?_eq_some hf
        have hp := List.find?_some hf
        rw [hall rr hmem] at hp
        exact absurd hp (by simp)
  · intro t
    rw [hit_test]
    cases hf : rects.find? (hit_test_pred offset test) with
    | none =>
      constructor
      · intro h
        exact Option.noConfusion h
      · rintro ⟨i, hi, hbef, hpi, ht⟩
        exfalso
        have hnone := List.find?_eq_none.mp hf (rects[i]) (List.getElem_mem hi)
        exact absurd hpi hnone
    | some rr =>
      obtain ⟨i0, hi0, hbef0, hpi0, hval0⟩ :=
        (find_first_iff (hit_test_pred offset test) rects rr).mp hf
      constructor
      · intro h
        have hrt : rr.node_ = t := Option.some.inj h
        exact ⟨i0, hi0, hbef0, hpi0, by rw [hval0, hrt]⟩
      · rintro ⟨i, hi, hbef, hpi, ht⟩
        have hii0 : i = i0 := by
          rcases Nat.lt_trichotomy i i0 with hlt | heq | hgt
          · rw [hbef0 i hlt] at hpi
            exact absurd hpi (by simp)
          · exact heq
          · rw [hbef i0 hgt] at hpi0
            exact absurd hpi0 (by simp)
        subst hii0
        show some rr.node_ = some t
        rw [hval0] at ht
        rw [ht]
  · intro rr
    rw [hit_test_pred]
    simp [ge_iff_le, and_assoc]

unseal Rat.mul Rat.add Rat.sub Rat.inv in
/-- C4 witness: a zero-size leaf in the 100 x 100 rectangle satisfies every
hypothesis, and the instrumented layout returns none. -/
theorem c4_zero_size_division_witness :
    Tree.size zTree = 0 ∧ (0 : ℚ) < zRect.width ∧ (0 : ℚ) < zRect.height ∧
    (0 : ℚ) * 0 * area zRect = Tree.size zTree ∧
    layout_checked zTree zRect false 0 = none :=
  ⟨by decide, by decide, by decide, by decide,
   c4_zero_size_division zTree zRect false 0 (by decide) (by decide)
     (by decide) (by decide)⟩

end Prism
